import Mathlib

open List

/-!
Shallow embedding of `src/huffman-visualizer/src/lib/huffman.ts` and proofs of
the specification's testable properties.

Modelling conventions:
* A TypeScript `HuffmanNode | null` value is an `HTree`; the TS `null` is the
  constructor `HTree.null`.
* A JS `Record<string, T>` (insertion-ordered string-keyed object) is a
  `List (Char × T)`; property read is `getVal`, property write is `setKey`
  (replace in place when the key exists, append otherwise).
* A JS string is a `String` (a list of Unicode scalar values); the spec fixes
  one character = one atomic symbol.
* The `MinHeap` backing array is a `List HTree`; out-of-range reads use the
  default `HTree.null` (they never occur on the reachable call sites, which is
  proved where needed).
* Code that can dereference `null` at runtime (`decodeText` descending into an
  absent child) is embedded with an `Option` result, `none` marking the throw.
-/

inductive HTree where
  | null : HTree
  | node (char : Option Char) (freq : Nat) (left : HTree) (right : HTree) : HTree
deriving DecidableEq, Repr

def HTree.freq : HTree → Nat
  | .null => 0
  | .node _ f _ _ => f

def HTree.char : HTree → Option Char
  | .null => none
  | .node c _ _ _ => c

def HTree.left : HTree → HTree
  | .null => .null
  | .node _ _ l _ => l

def HTree.right : HTree → HTree
  | .null => .null
  | .node _ _ _ r => r

/-- JS object property read: first binding of the key, if any. -/
def getVal {α : Type} (m : List (Char × α)) (k : Char) : Option α :=
  match m with
  | [] => none
  | p :: rest => if p.1 = k then some p.2 else getVal rest k

/-- JS object property write `m[k] = v`: overwrite in place when the key is
present, append a new binding otherwise. -/
def setKey {α : Type} (m : List (Char × α)) (k : Char) (v : α) : List (Char × α) :=
  if (getVal m k).isSome then m.map (fun p => if p.1 = k then (k, v) else p)
  else m ++ [(k, v)]

/-- The keys of an embedded JS object, in insertion order. -/
def keysOf {α : Type} (m : List (Char × α)) : List Char := m.map Prod.fst

/-- `createNode` from huffman.ts. -/
def createNode (char : Option Char) (freq : Nat) (left : HTree) (right : HTree) : HTree :=
  HTree.node char freq left right

/-- One step of the `calculateFrequencies` loop:
`frequencies[char] = (frequencies[char] || 0) + 1`. -/
def bumpCount (frequencies : List (Char × Nat)) (c : Char) : List (Char × Nat) :=
  setKey frequencies c (((getVal frequencies c).getD 0) + 1)

/-- `calculateFrequencies` from huffman.ts. -/
def calculateFrequencies (text : String) : List (Char × Nat) :=
  text.toList.foldl bumpCount []

/-- `MinHeap.getParentIndex`: `Math.floor((index - 1) / 2)` (only ever used
with `index ≥ 1`, where it agrees with Nat division). -/
def MinHeap.getParentIndex (index : Nat) : Nat := (index - 1) / 2

/-- `MinHeap.swap`. -/
def MinHeap.swap (heap : List HTree) (index1 index2 : Nat) : List HTree :=
  (heap.set index1 (heap.getD index2 .null)).set index2 (heap.getD index1 .null)

/-- `MinHeap.heapifyUp`. -/
def MinHeap.heapifyUp (heap : List HTree) (index : Nat) : List HTree :=
  if index = 0 then heap
  else
    if (heap.getD (MinHeap.getParentIndex index) .null).freq >
        (heap.getD index .null).freq then
      MinHeap.heapifyUp (MinHeap.swap heap (MinHeap.getParentIndex index) index)
        (MinHeap.getParentIndex index)
    else heap
termination_by index
decreasing_by
  simp only [MinHeap.getParentIndex]
  omega

/-- The index `heapifyDown` would swap with: `index`, or the smaller child. -/
def MinHeap.smallestIdx (heap : List HTree) (index : Nat) : Nat :=
  let leftChildIndex := 2 * index + 1
  let rightChildIndex := 2 * index + 2
  let s1 :=
    if leftChildIndex < heap.length ∧
        (heap.getD leftChildIndex .null).freq < (heap.getD index .null).freq then
      leftChildIndex
    else index
  if rightChildIndex < heap.length ∧
      (heap.getD rightChildIndex .null).freq < (heap.getD s1 .null).freq then
    rightChildIndex
  else s1

/-- `MinHeap.heapifyDown`. -/
def MinHeap.heapifyDown (heap : List HTree) (index : Nat) : List HTree :=
  if h : MinHeap.smallestIdx heap index ≠ index then
    MinHeap.heapifyDown (MinHeap.swap heap index (MinHeap.smallestIdx heap index))
      (MinHeap.smallestIdx heap index)
  else heap
termination_by heap.length - index
decreasing_by
  simp only [MinHeap.swap, List.length_set]
  simp only [MinHeap.smallestIdx] at h ⊢
  split_ifs at h ⊢ <;> omega

/-- `MinHeap.insert`: push, then sift up from the last slot. -/
def MinHeap.insert (heap : List HTree) (node : HTree) : List HTree :=
  MinHeap.heapifyUp (heap ++ [node]) ((heap ++ [node]).length - 1)

/-- `MinHeap.extractMin`, returning the extracted node (the TS `null` result
for an empty heap is `HTree.null`) together with the updated backing array. -/
def MinHeap.extractMin (heap : List HTree) : HTree × List HTree :=
  if heap.length = 0 then (.null, heap)
  else if heap.length = 1 then (heap.getD 0 .null, heap.dropLast)
  else
    (heap.getD 0 .null,
      MinHeap.heapifyDown ((heap.dropLast).set 0 (heap.getD (heap.length - 1) .null)) 0)

/-- The `while (heap.size() > 1)` merge loop of `buildHuffmanTree`. Each pass
extracts the two minima and inserts their merge, so the heap provably shrinks
by one; the inner size guard only encodes that fact as the termination
measure, and theorem `buildLoop_eq` below shows it always holds (the `else`
branch is dead code). -/
def buildLoop (heap : List HTree) : List HTree :=
  if 1 < heap.length then
    let e1 := MinHeap.extractMin heap
    let e2 := MinHeap.extractMin e1.2
    let next := MinHeap.insert e2.2 (createNode none (e1.1.freq + e2.1.freq) e1.1 e2.1)
    if h : next.length < heap.length then buildLoop next else next
  else heap
termination_by heap.length

/-- The leaf node `buildHuffmanTree` creates for one frequency-table entry. -/
def leafOf (p : Char × Nat) : HTree := createNode (some p.1) p.2 .null .null

/-- The heap of leaf nodes `buildHuffmanTree` starts from, one insert per
frequency-table entry.  The entries are taken in table (insertion) order;
JS `Object.entries` would move integer-like keys such as "0"–"9" to the
front, but every theorem below about the built tree is invariant under the
insertion order (the merge loop is analysed through `MergeRun`, which only
constrains the extracted minima), so the divergence is immaterial here. -/
def initialHeap (frequencies : List (Char × Nat)) : List HTree :=
  frequencies.foldl (fun hp p => MinHeap.insert hp (leafOf p)) []

/-- `buildHuffmanTree` from huffman.ts (the TS `heap` and `node` consts are
inlined: `initialHeap frequencies` is the heap after the insertion loop). -/
def buildHuffmanTree (frequencies : List (Char × Nat)) : HTree :=
  if (initialHeap frequencies).length = 1 then
    createNode none (MinHeap.extractMin (initialHeap frequencies)).1.freq
      (MinHeap.extractMin (initialHeap frequencies)).1 .null
  else
    (MinHeap.extractMin (buildLoop (initialHeap frequencies))).1

/-- `generateCodes` from huffman.ts; a node with a symbol is a leaf and
records `code || "0"`. -/
def generateCodes (root : HTree) (code : String) (codes : List (Char × String)) :
    List (Char × String) :=
  match root with
  | .null => codes
  | .node (some c) _ _ _ => setKey codes c (if code = "" then "0" else code)
  | .node none _ l r => generateCodes r (code ++ "1") (generateCodes l (code ++ "0") codes)

/-- The UTF-16 code units a JS string stores for one code point: the value
itself below 0x10000, and a high/low surrogate pair for astral code points. -/
def utf16Units (c : Char) : List Nat :=
  if c.toNat < 65536 then [c.toNat]
  else [55296 + (c.toNat - 65536) / 1024, 56320 + (c.toNat - 65536) % 1024]

/-- JS `text.split('')`: the UTF-16 code units of the string, each yielded as
a separate one-code-unit string (astral symbols are split into their two
surrogate halves). -/
def splitCodeUnits (text : String) : List Nat :=
  (text.toList.map utf16Units).flatten

/-- Lookup of a one-code-unit string in a table keyed by whole code points
(JS compares the strings): the unit hits exactly a key whose UTF-16 form is
that single unit.  A key outside the BMP is two code units long, so a lone
surrogate half never hits. -/
def getValU {α : Type} (m : List (Char × α)) (u : Nat) : Option α :=
  match m with
  | [] => none
  | p :: rest => if utf16Units p.1 = [u] then some p.2 else getValU rest u

/-- `encodeText` from huffman.ts: `text.split('').map(c => codes[c]).join('')`.
`split('')` yields one-code-unit strings, so each lookup is keyed by a single
UTF-16 code unit; `join` renders a missing entry (`undefined`) as the empty
string. -/
def encodeText (text : String) (codes : List (Char × String)) : String :=
  String.join ((splitCodeUnits text).map (fun u => ((getValU codes u).getD "")))

/-- The `for (const bit of encoded)` loop of `decodeText` plus the trailing
leaf check; `none` models the `TypeError` thrown when the walk has moved into
an absent child and `current.char` is then read. -/
def decodeGo (root : HTree) : List Char → HTree → String → Option String
  | [], .null, _ => none
  | [], .node none _ _ _, decoded => some decoded
  | [], .node (some c) _ _ _, decoded => some (decoded.push c)
  | _ :: _, .null, _ => none
  | bit :: rest, .node none _ l r, decoded =>
      decodeGo root rest (if bit = '0' then l else r) decoded
  | bit :: rest, .node (some c) _ _ _, decoded =>
      decodeGo root rest (if bit = '0' then root.left else root.right) (decoded.push c)

/-- `decodeText` from huffman.ts. -/
def decodeText (encoded : String) (root : HTree) : Option String :=
  match root with
  | .null => some ""
  | _ => if encoded = "" then some "" else decodeGo root encoded.toList root ""

/-- The symbols at the leaves of a tree, left to right.  A node carrying a
symbol counts as a leaf exactly as in `generateCodes`/`decodeText`. -/
def HTree.chars : HTree → List Char
  | .null => []
  | .node (some c) _ _ _ => [c]
  | .node none _ l r => l.chars ++ r.chars

/-- Root-to-leaf paths of a tree, with the bit characters `generateCodes`
appends: '0' for a left descent, '1' for a right descent. -/
def leafPaths : HTree → List (Char × List Char)
  | .null => []
  | .node (some c) _ _ _ => [(c, [])]
  | .node none _ l r =>
      (leafPaths l).map (fun q => (q.1, '0' :: q.2)) ++
        (leafPaths r).map (fun q => (q.1, '1' :: q.2))

/-- `Walks t p u`: starting at `t` and descending by the bits of `p`
('0' = left, '1' = right) passes only symbol-free nodes and ends at the
symbol-carrying node `u`. -/
inductive Walks : HTree → List Char → HTree → Prop
  | here (c : Option Char) (f : Nat) (l r : HTree) (hc : c.isSome) :
      Walks (.node c f l r) [] (.node c f l r)
  | left {l p u} (f : Nat) (r : HTree) :
      Walks l p u → Walks (.node none f l r) ('0' :: p) u
  | right {r p u} (f : Nat) (l : HTree) :
      Walks r p u → Walks (.node none f l r) ('1' :: p) u

/-- Sum of the values of an embedded JS object mapping to numbers. -/
def sumVals (m : List (Char × Nat)) : Nat := (m.map Prod.snd).sum

/-- Sum of the root weights of the trees in a heap/pool. -/
def poolFreq (pool : List HTree) : Nat := (pool.map HTree.freq).sum

/-- The concatenated leaf symbols of all trees in a heap/pool. -/
def poolChars (pool : List HTree) : List Char := (pool.map HTree.chars).flatten

/-- Strict binary trees: leaves carry a symbol and have no children, inner
nodes carry no symbol and have two children.  Every tree in the merge loop's
heap is of this shape. -/
inductive Full : HTree → Prop
  | leaf (c : Char) (f : Nat) : Full (.node (some c) f .null .null)
  | internal {l r : HTree} (f : Nat) : Full l → Full r → Full (.node none f l r)

/-- Binary-heap ordering of the backing array: each entry's weight is at
least its parent's. -/
def IsHeap (heap : List HTree) : Prop :=
  ∀ j, 0 < j → j < heap.length →
    (heap.getD ((j - 1) / 2) .null).freq ≤ (heap.getD j .null).freq

/-- A tree that is a single leaf node, as created for a frequency entry. -/
def IsLeafNode (t : HTree) : Prop := ∃ c f, t = HTree.node (some c) f HTree.null HTree.null

/-- Strict binary trees with correct weights: leaves carry a symbol, inner
nodes carry none and weigh the sum of their two children. -/
inductive FullW : HTree → Prop
  | leaf (c : Char) (f : Nat) : FullW (.node (some c) f .null .null)
  | internal {l r : HTree} (f : Nat) : FullW l → FullW r → f = l.freq + r.freq →
      FullW (.node none f l r)

/-- All leaves of the tree weigh at least `w`. -/
def LeafBound (w : Nat) : HTree → Prop
  | .null => True
  | .node (some _) f _ _ => w ≤ f
  | .node none _ l r => LeafBound w l ∧ LeafBound w r

/-- The subtree at a path (`false` = left, `true` = right), if the path stays
inside the tree. -/
def nodeAt (t : HTree) (q : List Bool) : Option HTree :=
  match q with
  | [] => some t
  | d :: p =>
    match t with
    | .null => none
    | .node _ _ l r => nodeAt (if d then r else l) p

/-- Replace the subtree at a path. -/
def replaceAt (t : HTree) (q : List Bool) (s : HTree) : HTree :=
  match q with
  | [] => s
  | d :: p =>
    match t with
    | .null => .null
    | .node c f l r =>
        if d then HTree.node c f l (replaceAt r p s)
        else HTree.node c f (replaceAt l p s) r

/-- The leaf nodes of a tree, left to right. -/
def HTree.leaves : HTree → List HTree
  | .null => []
  | .node (some c) f l r => [.node (some c) f l r]
  | .node none _ l r => l.leaves ++ r.leaves

/-- Concatenated leaves of all trees of a pool. -/
def poolLeaves (pool : List HTree) : List HTree := (pool.map HTree.leaves).flatten

/-- Abstract view of the merge loop: repeatedly remove two minimum-weight
trees (`a` first, then `b`, so `a` is a minimum of the whole pool and `b` of
the remainder) and add the internal node merging them, until a single tree
remains.  `buildLoop` on a well-ordered heap is one such run. -/
inductive MergeRun : List HTree → HTree → Prop
  | single (t : HTree) : MergeRun [t] t
  | step (pool rest : List HTree) (a b : HTree) (T : HTree) :
      pool ~ a :: b :: rest →
      (∀ t ∈ pool, a.freq ≤ t.freq) →
      (∀ t ∈ rest, b.freq ≤ t.freq) →
      MergeRun (HTree.node none (a.freq + b.freq) a b :: rest) T →
      MergeRun pool T

structure HuffmanResult where
  frequencies : List (Char × Nat)
  codes : List (Char × String)
  encoded : String
  decoded : String
  compressionRatio : ℚ
  originalSize : Nat
  compressedSize : Nat
deriving DecidableEq, Repr

/-- `huffmanEncode` from huffman.ts; `none` propagates a decoder throw (which
theorem `huffmanEncode_total` below shows never happens).  JS `text.length`
counts UTF-16 code units, so `originalSize` is `(splitCodeUnits text).length * 8`;
the encoded bitstring is ASCII, so its `.length` is its scalar count. -/
def huffmanEncode (text : String) : Option HuffmanResult :=
  if text = "" then some ⟨[], [], "", "", 0, 0, 0⟩
  else
    let frequencies := calculateFrequencies text
    let root := buildHuffmanTree frequencies
    let codes := generateCodes root "" []
    let encoded := encodeText text codes
    match decodeText encoded root with
    | none => none
    | some decoded =>
        some ⟨frequencies, codes, encoded, decoded,
          (if 0 < (splitCodeUnits text).length * 8 then
            ((encoded.length : ℚ) / (((splitCodeUnits text).length * 8 : Nat) : ℚ)) * 100 else 0),
          (splitCodeUnits text).length * 8, encoded.length⟩

/-! ## Embedded JS object (association list) lemmas -/

theorem getVal_isSome_iff {α : Type} (m : List (Char × α)) (k : Char) :
    (getVal m k).isSome ↔ k ∈ keysOf m := by
  induction m with
  | nil => simp [getVal, keysOf]
  | cons p rest ih =>
    by_cases h : p.1 = k
    · simp [getVal, keysOf, h]
    · simp [getVal, keysOf, h, ih, Ne.symm h]

theorem getVal_eq_none_iff {α : Type} (m : List (Char × α)) (k : Char) :
    getVal m k = none ↔ k ∉ keysOf m := by
  rw [← getVal_isSome_iff]
  cases getVal m k <;> simp

theorem keysOf_setKey {α : Type} (m : List (Char × α)) (k : Char) (v : α) :
    keysOf (setKey m k v) = if k ∈ keysOf m then keysOf m else keysOf m ++ [k] := by
  unfold setKey
  by_cases h : (getVal m k).isSome
  · rw [if_pos h, if_pos ((getVal_isSome_iff m k).mp h)]
    simp only [keysOf, List.map_map]
    apply List.map_congr_left
    intro p _
    by_cases hpk : p.1 = k <;> simp [hpk]
  · rw [if_neg h, if_neg (fun hk => h ((getVal_isSome_iff m k).mpr hk))]
    simp [keysOf]

theorem keysOf_setKey_nodup {α : Type} (m : List (Char × α)) (k : Char) (v : α)
    (h : (keysOf m).Nodup) : (keysOf (setKey m k v)).Nodup := by
  rw [keysOf_setKey]
  split
  · exact h
  · rename_i hk
    simp [List.nodup_append, h, hk]

theorem getVal_append_left {α : Type} (m₁ m₂ : List (Char × α)) (k : Char)
    (h : k ∈ keysOf m₁) : getVal (m₁ ++ m₂) k = getVal m₁ k := by
  induction m₁ with
  | nil => simp [keysOf] at h
  | cons p rest ih =>
    by_cases hpk : p.1 = k
    · simp [getVal, hpk]
    · simp only [keysOf, List.map_cons, List.mem_cons] at h
      rcases h with h | h
      · exact absurd h.symm hpk
      · simp [getVal, hpk, ih h]

theorem getVal_append_right {α : Type} (m₁ m₂ : List (Char × α)) (k : Char)
    (h : k ∉ keysOf m₁) : getVal (m₁ ++ m₂) k = getVal m₂ k := by
  induction m₁ with
  | nil => simp
  | cons p rest ih =>
    simp only [keysOf, List.map_cons, List.mem_cons] at h
    push_neg at h
    simp [getVal, Ne.symm h.1, ih h.2]

theorem getVal_mem {α : Type} (m : List (Char × α)) (k : Char) (v : α)
    (h : getVal m k = some v) : (k, v) ∈ m := by
  induction m with
  | nil => simp [getVal] at h
  | cons p rest ih =>
    by_cases hpk : p.1 = k
    · simp only [getVal, if_pos hpk] at h
      cases h
      subst hpk
      simp
    · simp only [getVal, if_neg hpk] at h
      exact List.mem_cons_of_mem _ (ih h)

theorem getVal_of_mem_nodup {α : Type} (m : List (Char × α)) (k : Char) (v : α)
    (hmem : (k, v) ∈ m) (hnd : (keysOf m).Nodup) : getVal m k = some v := by
  induction m with
  | nil => simp at hmem
  | cons p rest ih =>
    simp only [keysOf, List.map_cons, List.nodup_cons] at hnd
    rcases List.mem_cons.mp hmem with h | h
    · subst h
      simp [getVal]
    · have hk : p.1 ≠ k := by
        intro he
        exact hnd.1 (he ▸ (List.mem_map_of_mem Prod.fst h))
      simp [getVal, hk, ih h hnd.2]

/-! ## `calculateFrequencies` lemmas -/

theorem keysOf_bumpCount (m : List (Char × Nat)) (c : Char) :
    keysOf (bumpCount m c) = if c ∈ keysOf m then keysOf m else keysOf m ++ [c] :=
  keysOf_setKey m c _

theorem foldl_bumpCount_nodup (cs : List Char) :
    ∀ acc : List (Char × Nat), (keysOf acc).Nodup → (keysOf (cs.foldl bumpCount acc)).Nodup := by
  induction cs with
  | nil => intro acc h; exact h
  | cons c cs ih =>
    intro acc h
    exact ih _ (keysOf_setKey_nodup _ _ _ h)

theorem mem_keysOf_foldl_bumpCount (cs : List Char) :
    ∀ (acc : List (Char × Nat)) (k : Char),
      k ∈ keysOf (cs.foldl bumpCount acc) ↔ k ∈ keysOf acc ∨ k ∈ cs := by
  induction cs with
  | nil => intro acc k; simp
  | cons c cs ih =>
    intro acc k
    rw [List.foldl_cons, ih]
    rw [keysOf_bumpCount]
    split
    · rename_i hc
      simp only [List.mem_cons]
      constructor
      · tauto
      · rintro (h | rfl | h) <;> tauto
    · simp only [List.mem_append, List.mem_singleton, List.mem_cons]
      tauto

theorem calculateFrequencies_nodup (text : String) :
    (keysOf (calculateFrequencies text)).Nodup :=
  foldl_bumpCount_nodup _ [] (by simp [keysOf])

theorem mem_keysOf_calculateFrequencies (text : String) (k : Char) :
    k ∈ keysOf (calculateFrequencies text) ↔ k ∈ text.toList := by
  unfold calculateFrequencies
  rw [mem_keysOf_foldl_bumpCount]
  simp [keysOf]

theorem sumVals_map_replace (m : List (Char × Nat)) (c : Char) (v0 : Nat)
    (hnd : (keysOf m).Nodup) (hv : getVal m c = some v0) :
    sumVals (m.map (fun p => if p.1 = c then (c, v0 + 1) else p)) = sumVals m + 1 := by
  induction m with
  | nil => simp [getVal] at hv
  | cons p rest ih =>
    simp only [keysOf, List.map_cons, List.nodup_cons] at hnd
    by_cases hpc : p.1 = c
    · simp only [getVal, if_pos hpc] at hv
      cases hv
      have hrest : rest.map (fun q => if q.1 = c then (c, p.2 + 1) else q) = rest := by
        have h0 : ∀ q ∈ rest, (fun q2 => if q2.1 = c then (c, p.2 + 1) else q2) q = q := by
          intro q hq
          have hqc : q.1 ≠ c := by
            intro he
            exact hnd.1 (hpc ▸ he ▸ (List.mem_map_of_mem Prod.fst hq))
          simp [hqc]
        rw [List.map_congr_left h0, List.map_id' rest]
      simp only [List.map_cons, if_pos hpc, hrest, sumVals, List.sum_cons]
      omega
    · simp only [getVal, if_neg hpc] at hv
      simp only [List.map_cons, if_neg hpc, sumVals, List.map_cons, List.sum_cons]
      have := ih hnd.2 hv
      simp only [sumVals] at this
      omega

theorem sumVals_bumpCount (m : List (Char × Nat)) (c : Char)
    (hnd : (keysOf m).Nodup) : sumVals (bumpCount m c) = sumVals m + 1 := by
  unfold bumpCount setKey
  by_cases h : (getVal m c).isSome
  · obtain ⟨v0, hv0⟩ := Option.isSome_iff_exists.mp h
    rw [if_pos h, hv0]
    exact sumVals_map_replace m c v0 hnd hv0
  · rw [if_neg h]
    have : getVal m c = none := by
      cases hg : getVal m c
      · rfl
      · rw [hg] at h; simp at h
    rw [this]
    simp [sumVals]

theorem sumVals_foldl_bumpCount (cs : List Char) :
    ∀ acc : List (Char × Nat), (keysOf acc).Nodup →
      sumVals (cs.foldl bumpCount acc) = sumVals acc + cs.length := by
  induction cs with
  | nil => intro acc _; simp
  | cons c cs ih =>
    intro acc hnd
    have hnd2 : (keysOf (bumpCount acc c)).Nodup := keysOf_setKey_nodup acc c _ hnd
    rw [List.foldl_cons, ih (bumpCount acc c) hnd2, sumVals_bumpCount acc c hnd]
    simp only [List.length_cons]
    omega

theorem sumVals_calculateFrequencies (text : String) :
    sumVals (calculateFrequencies text) = text.length := by
  unfold calculateFrequencies
  rw [sumVals_foldl_bumpCount _ [] (by simp [keysOf])]
  simp [sumVals]

theorem calculateFrequencies_ne_nil (text : String) (h : text ≠ "") :
    calculateFrequencies text ≠ [] := by
  have htl : text.toList ≠ [] := by
    intro he
    apply h
    cases text with
    | mk data =>
      have hd : data = [] := he
      subst hd
      rfl
  obtain ⟨c, cs, hcs⟩ := List.exists_cons_of_ne_nil htl
  intro hnil
  have : c ∈ keysOf (calculateFrequencies text) := by
    rw [mem_keysOf_calculateFrequencies, hcs]
    simp
  rw [hnil] at this
  simp [keysOf] at this

/-! ## Heap permutation lemmas -/

theorem getD_cons_swapHead_perm {α : Type} :
    ∀ (t : List α) (m : Nat) (x d : α), m < t.length →
      (t.getD m d) :: t.set m x ~ x :: t := by
  intro t
  induction t with
  | nil => intro m x d h; simp at h
  | cons y t2 ih =>
    intro m x d h
    cases m with
    | zero => simpa using List.Perm.swap x y t2
    | succ k =>
      simp only [List.getD_cons_succ, List.set_cons_succ]
      calc t2.getD k d :: y :: t2.set k x
          ~ y :: t2.getD k d :: t2.set k x := List.Perm.swap _ _ _
        _ ~ y :: x :: t2 := (ih k x d (by simpa using h)).cons y
        _ ~ x :: y :: t2 := List.Perm.swap _ _ _

theorem minHeapSwap_perm (h : List HTree) (i j : Nat)
    (hi : i < h.length) (hj : j < h.length) : MinHeap.swap h i j ~ h := by
  unfold MinHeap.swap
  induction h generalizing i j with
  | nil => simp at hi
  | cons y t ih =>
    cases i with
    | zero =>
      cases j with
      | zero => simp
      | succ m =>
        simp only [List.getD_cons_zero, List.getD_cons_succ, List.set_cons_zero,
          List.set_cons_succ]
        exact getD_cons_swapHead_perm t m y HTree.null (by simpa using hj)
    | succ n =>
      cases j with
      | zero =>
        simp only [List.getD_cons_zero, List.getD_cons_succ, List.set_cons_zero,
          List.set_cons_succ]
        exact getD_cons_swapHead_perm t n y HTree.null (by simpa using hi)
      | succ m =>
        simp only [List.getD_cons_succ, List.set_cons_succ]
        exact (ih n m (by simpa using hi) (by simpa using hj)).cons y

theorem minHeapSwap_length (h : List HTree) (i j : Nat) :
    (MinHeap.swap h i j).length = h.length := by
  simp [MinHeap.swap]

theorem heapifyUp_perm (h : List HTree) (i : Nat) (hi : i < h.length) :
    MinHeap.heapifyUp h i ~ h := by
  induction i using Nat.strong_induction_on generalizing h with
  | _ i ih =>
    unfold MinHeap.heapifyUp
    split
    · exact List.Perm.refl h
    · rename_i hne
      split
      · have hp : MinHeap.getParentIndex i < i := by
          unfold MinHeap.getParentIndex; omega
        have hplen : MinHeap.getParentIndex i < h.length := lt_trans hp hi
        have hswap := minHeapSwap_perm h (MinHeap.getParentIndex i) i hplen hi
        exact (ih _ hp _ (by rw [minHeapSwap_length]; exact lt_trans hp hi)).trans hswap
      · exact List.Perm.refl h

theorem smallestIdx_spec (heap : List HTree) (index : Nat) :
    MinHeap.smallestIdx heap index = index ∨
      (index < MinHeap.smallestIdx heap index ∧
        MinHeap.smallestIdx heap index < heap.length) := by
  simp only [MinHeap.smallestIdx]
  split_ifs <;> simp_all <;> omega

theorem heapifyDown_perm (h : List HTree) (i : Nat) :
    MinHeap.heapifyDown h i ~ h := by
  have hwf : ∀ (n : Nat) (h : List HTree) (i : Nat), h.length - i ≤ n →
      MinHeap.heapifyDown h i ~ h := by
    intro n
    induction n with
    | zero =>
      intro h i hle
      unfold MinHeap.heapifyDown
      split
      · rename_i hs
        rcases smallestIdx_spec h i with h1 | h1
        · exact absurd h1 hs
        · omega
      · exact List.Perm.refl h
    | succ n ih =>
      intro h i hle
      unfold MinHeap.heapifyDown
      split
      · rename_i hs
        rcases smallestIdx_spec h i with h1 | h1
        · exact absurd h1 hs
        · have hilen : i < h.length := lt_trans h1.1 h1.2
          have hswap := minHeapSwap_perm h i (MinHeap.smallestIdx h i) hilen h1.2
          refine (ih _ _ ?_).trans hswap
          rw [minHeapSwap_length]
          omega
      · exact List.Perm.refl h
  exact hwf (h.length - i) h i le_rfl

theorem minHeapInsert_perm (h : List HTree) (x : HTree) :
    MinHeap.insert h x ~ x :: h := by
  unfold MinHeap.insert
  refine (heapifyUp_perm _ _ ?_).trans (List.perm_append_singleton x h)
  simp

theorem minHeapInsert_length (h : List HTree) (x : HTree) :
    (MinHeap.insert h x).length = h.length + 1 := by
  simpa using (minHeapInsert_perm h x).length_eq

theorem extractMin_length (h : List HTree) :
    (MinHeap.extractMin h).2.length = h.length - 1 := by
  unfold MinHeap.extractMin
  split
  · rename_i h0; simp [h0]
  · split
    · simp
    · simp [(heapifyDown_perm _ 0).length_eq]

theorem lastCons_dropLast_perm {α : Type} :
    ∀ (t : List α) (d : α), t ≠ [] → (t.getD (t.length - 1) d) :: t.dropLast ~ t := by
  intro t
  induction t with
  | nil => intro d hd; exact absurd rfl hd
  | cons z t2 ih =>
    intro d _
    cases t2 with
    | nil => simp
    | cons w t3 =>
      have hh : (z :: w :: t3).getD ((z :: w :: t3).length - 1) d =
          (w :: t3).getD ((w :: t3).length - 1) d := by
        simp only [List.length_cons, Nat.add_sub_cancel, List.getD_cons_succ]
      rw [hh, List.dropLast_cons₂]
      calc (w :: t3).getD ((w :: t3).length - 1) d :: z :: (w :: t3).dropLast
          ~ z :: (w :: t3).getD ((w :: t3).length - 1) d :: (w :: t3).dropLast :=
            List.Perm.swap _ _ _
        _ ~ z :: w :: t3 := (ih d (by simp)).cons z

theorem extractMin_perm (h : List HTree) (hne : h ≠ []) :
    (MinHeap.extractMin h).1 :: (MinHeap.extractMin h).2 ~ h := by
  unfold MinHeap.extractMin
  split
  · rename_i h0
    exact absurd (List.length_eq_zero.mp h0) hne
  · split
    · rename_i h1
      obtain ⟨a, ha⟩ := List.length_eq_one.mp h1
      subst ha
      simp
    · rename_i h0 h1
      have hlen : 2 ≤ h.length := by
        have := List.length_pos.mpr hne
        omega
      cases h with
      | nil => simp at hne
      | cons y t =>
        have htne : t ≠ [] := by
          intro he
          rw [he] at hlen
          simp at hlen
        simp only [List.getD_cons_zero]
        refine List.Perm.trans (List.Perm.cons _ (heapifyDown_perm _ 0)) ?_
        have hdl : (y :: t).dropLast = y :: t.dropLast := by
          cases t with
          | nil => exact absurd rfl htne
          | cons w t3 => exact List.dropLast_cons₂
        have hgd : (y :: t).getD ((y :: t).length - 1) HTree.null =
            t.getD (t.length - 1) HTree.null := by
          cases t with
          | nil => exact absurd rfl htne
          | cons w t3 => simp only [List.length_cons, Nat.add_sub_cancel, List.getD_cons_succ]
        rw [hdl, hgd, List.set_cons_zero]
        exact ((lastCons_dropLast_perm t HTree.null htne).cons y)

/-! ## Pool-level lemmas for the merge loop -/

theorem createNode_freq (c : Option Char) (f : Nat) (l r : HTree) :
    (createNode c f l r).freq = f := rfl

theorem createNode_chars_none (f : Nat) (l r : HTree) :
    (createNode none f l r).chars = l.chars ++ r.chars := rfl

theorem perm_flatten {α : Type} {l₁ l₂ : List (List α)} (h : l₁ ~ l₂) :
    l₁.flatten ~ l₂.flatten := by
  induction h with
  | nil => rfl
  | cons x _ ih => simpa [List.flatten_cons] using ih.append_left x
  | swap x y l =>
    simp only [List.flatten_cons, ← List.append_assoc]
    exact (List.perm_append_comm).append_right _
  | trans _ _ ih1 ih2 => exact ih1.trans ih2

theorem poolChars_perm {p₁ p₂ : List HTree} (h : p₁ ~ p₂) : poolChars p₁ ~ poolChars p₂ :=
  perm_flatten (h.map HTree.chars)

theorem poolChars_cons (t : HTree) (p : List HTree) :
    poolChars (t :: p) = t.chars ++ poolChars p := by
  simp [poolChars]

theorem poolFreq_perm {p₁ p₂ : List HTree} (h : p₁ ~ p₂) : poolFreq p₁ = poolFreq p₂ :=
  (h.map HTree.freq).sum_eq

theorem poolFreq_cons (t : HTree) (p : List HTree) :
    poolFreq (t :: p) = t.freq + poolFreq p := by
  simp [poolFreq]

theorem buildLoop_eq_self (heap : List HTree) (h : ¬ 1 < heap.length) :
    buildLoop heap = heap := by
  unfold buildLoop
  rw [if_neg h]

theorem buildLoop_eq (heap : List HTree) (h : 1 < heap.length) :
    buildLoop heap
      = buildLoop (MinHeap.insert (MinHeap.extractMin (MinHeap.extractMin heap).2).2
          (createNode none
            ((MinHeap.extractMin heap).1.freq +
              (MinHeap.extractMin (MinHeap.extractMin heap).2).1.freq)
            (MinHeap.extractMin heap).1
            (MinHeap.extractMin (MinHeap.extractMin heap).2).1)) := by
  have hlen : (MinHeap.insert (MinHeap.extractMin (MinHeap.extractMin heap).2).2
      (createNode none
        ((MinHeap.extractMin heap).1.freq +
          (MinHeap.extractMin (MinHeap.extractMin heap).2).1.freq)
        (MinHeap.extractMin heap).1
        (MinHeap.extractMin (MinHeap.extractMin heap).2).1)).length < heap.length := by
    rw [minHeapInsert_length, extractMin_length, extractMin_length]
    omega
  conv_lhs => rw [buildLoop]
  rw [if_pos h]
  rw [dif_pos hlen]

theorem buildLoop_next_length (heap : List HTree) (h : 1 < heap.length) :
    (MinHeap.insert (MinHeap.extractMin (MinHeap.extractMin heap).2).2
      (createNode none
        ((MinHeap.extractMin heap).1.freq +
          (MinHeap.extractMin (MinHeap.extractMin heap).2).1.freq)
        (MinHeap.extractMin heap).1
        (MinHeap.extractMin (MinHeap.extractMin heap).2).1)).length = heap.length - 1 := by
  rw [minHeapInsert_length, extractMin_length, extractMin_length]
  omega

/-- The permutation shape of one merge pass: the next pool is the merged node
together with the rest, and the two merged trees are drawn from the heap. -/
theorem buildLoop_step_perm (heap : List HTree) (h : 1 < heap.length) :
    MinHeap.insert (MinHeap.extractMin (MinHeap.extractMin heap).2).2
        (createNode none
          ((MinHeap.extractMin heap).1.freq +
            (MinHeap.extractMin (MinHeap.extractMin heap).2).1.freq)
          (MinHeap.extractMin heap).1
          (MinHeap.extractMin (MinHeap.extractMin heap).2).1)
      ~ createNode none
          ((MinHeap.extractMin heap).1.freq +
            (MinHeap.extractMin (MinHeap.extractMin heap).2).1.freq)
          (MinHeap.extractMin heap).1
          (MinHeap.extractMin (MinHeap.extractMin heap).2).1
        :: (MinHeap.extractMin (MinHeap.extractMin heap).2).2 :=
  minHeapInsert_perm _ _

theorem extractMin_snd_ne_nil (heap : List HTree) (h : 1 < heap.length) :
    (MinHeap.extractMin heap).2 ≠ [] := by
  intro he
  have := extractMin_length heap
  rw [he] at this
  simp at this
  omega

theorem heap_ne_nil_of_one_lt (heap : List HTree) (h : 1 < heap.length) : heap ≠ [] := by
  intro he
  rw [he] at h
  simp at h

theorem buildLoop_length (heap : List HTree) (hne : heap ≠ []) :
    (buildLoop heap).length = 1 := by
  by_cases h : 1 < heap.length
  · rw [buildLoop_eq heap h]
    apply buildLoop_length
    intro he
    have := buildLoop_next_length heap h
    rw [he] at this
    simp at this
    omega
  · rw [buildLoop_eq_self heap h]
    have := List.length_pos.mpr hne
    omega
termination_by heap.length
decreasing_by
  rw [buildLoop_next_length heap h]
  have := List.length_pos.mpr hne
  omega

theorem buildLoop_poolFreq (heap : List HTree) :
    poolFreq (buildLoop heap) = poolFreq heap := by
  by_cases h : 1 < heap.length
  · rw [buildLoop_eq heap h]
    rw [buildLoop_poolFreq]
    have h1 := extractMin_perm heap (heap_ne_nil_of_one_lt heap h)
    have h2 := extractMin_perm (MinHeap.extractMin heap).2 (extractMin_snd_ne_nil heap h)
    have e1 := poolFreq_perm (buildLoop_step_perm heap h)
    have e2 := poolFreq_perm h1
    have e3 := poolFreq_perm h2
    rw [poolFreq_cons] at e1 e2 e3
    rw [createNode_freq] at e1
    omega
  · rw [buildLoop_eq_self heap h]
termination_by heap.length
decreasing_by
  rw [buildLoop_next_length heap h]
  have := heap_ne_nil_of_one_lt heap h
  have := List.length_pos.mpr this
  omega

theorem buildLoop_poolChars (heap : List HTree) :
    poolChars (buildLoop heap) ~ poolChars heap := by
  by_cases h : 1 < heap.length
  · rw [buildLoop_eq heap h]
    refine (buildLoop_poolChars _).trans ?_
    have h1 := extractMin_perm heap (heap_ne_nil_of_one_lt heap h)
    have h2 := extractMin_perm (MinHeap.extractMin heap).2 (extractMin_snd_ne_nil heap h)
    refine (poolChars_perm (buildLoop_step_perm heap h)).trans ?_
    rw [poolChars_cons, createNode_chars_none, List.append_assoc]
    have hA : (MinHeap.extractMin heap).1.chars ++ poolChars (MinHeap.extractMin heap).2
        ~ poolChars heap := by
      have := poolChars_perm h1
      rw [poolChars_cons] at this
      exact this
    have hB : (MinHeap.extractMin (MinHeap.extractMin heap).2).1.chars
        ++ poolChars (MinHeap.extractMin (MinHeap.extractMin heap).2).2
        ~ poolChars (MinHeap.extractMin heap).2 := by
      have := poolChars_perm h2
      rw [poolChars_cons] at this
      exact this
    exact (hB.append_left _).trans hA
  · rw [buildLoop_eq_self heap h]
termination_by heap.length
decreasing_by
  rw [buildLoop_next_length heap h]
  have := heap_ne_nil_of_one_lt heap h
  have := List.length_pos.mpr this
  omega

theorem buildLoop_full (heap : List HTree) (hfull : ∀ t ∈ heap, Full t) :
    ∀ t ∈ buildLoop heap, Full t := by
  by_cases h : 1 < heap.length
  · rw [buildLoop_eq heap h]
    apply buildLoop_full
    intro t ht
    have h1 := extractMin_perm heap (heap_ne_nil_of_one_lt heap h)
    have h2 := extractMin_perm (MinHeap.extractMin heap).2 (extractMin_snd_ne_nil heap h)
    have hin1 : Full (MinHeap.extractMin heap).1 :=
      hfull _ (h1.subset (List.mem_cons_self _ _))
    have hsub : ∀ u ∈ (MinHeap.extractMin heap).2, Full u := by
      intro u hu
      exact hfull _ (h1.subset (List.mem_cons_of_mem _ hu))
    have hin2 : Full (MinHeap.extractMin (MinHeap.extractMin heap).2).1 :=
      hsub _ (h2.subset (List.mem_cons_self _ _))
    have hmem := (buildLoop_step_perm heap h).subset ht
    rcases List.mem_cons.mp hmem with hm | hm
    · subst hm
      exact Full.internal _ hin1 hin2
    · exact hsub _ (h2.subset (List.mem_cons_of_mem _ hm))
  · rw [buildLoop_eq_self heap h]
    exact hfull
termination_by heap.length
decreasing_by
  rw [buildLoop_next_length heap h]
  have := heap_ne_nil_of_one_lt heap h
  have := List.length_pos.mpr this
  omega

/-! ## Small-heap evaluation lemmas -/

theorem heapifyUp_zero (h : List HTree) : MinHeap.heapifyUp h 0 = h := by
  rw [MinHeap.heapifyUp.eq_def]
  rfl

theorem minHeapInsert_nil (x : HTree) : MinHeap.insert [] x = [x] := by
  unfold MinHeap.insert
  exact heapifyUp_zero [x]

theorem minHeapInsert_pair (y x : HTree) :
    MinHeap.insert [y] x = if y.freq > x.freq then [x, y] else [y, x] := by
  unfold MinHeap.insert
  show MinHeap.heapifyUp [y, x] 1 = _
  rw [MinHeap.heapifyUp.eq_def]
  have h1 : (1 : Nat) ≠ 0 := by omega
  rw [if_neg h1]
  have hp : MinHeap.getParentIndex 1 = 0 := rfl
  rw [hp]
  split
  · rw [show MinHeap.swap [y, x] 0 1 = [x, y] from rfl, heapifyUp_zero]
    rename_i hc
    simp only [List.getD_cons_zero, List.getD_cons_succ] at hc
    rw [if_pos hc]
  · rename_i hc
    simp only [List.getD_cons_zero, List.getD_cons_succ] at hc
    rw [if_neg hc]

theorem extractMin_singleton (t : HTree) : MinHeap.extractMin [t] = (t, []) := rfl

theorem heapifyDown_singleton (t : HTree) : MinHeap.heapifyDown [t] 0 = [t] := by
  rw [MinHeap.heapifyDown.eq_def]
  have : MinHeap.smallestIdx [t] 0 = 0 := by
    simp [MinHeap.smallestIdx]
  simp [this]

theorem extractMin_pair (x y : HTree) : MinHeap.extractMin [x, y] = (x, [y]) := by
  unfold MinHeap.extractMin
  have h2 : ([x, y] : List HTree).length = 2 := rfl
  rw [h2]
  norm_num
  show MinHeap.heapifyDown [y] 0 = [y]
  exact heapifyDown_singleton y

theorem buildLoop_pair (x y : HTree) :
    buildLoop [x, y] = [createNode none (x.freq + y.freq) x y] := by
  rw [buildLoop_eq [x, y] (by norm_num), extractMin_pair, extractMin_singleton,
    minHeapInsert_nil]
  exact buildLoop_eq_self _ (by norm_num)

/-! ## The initial heap and the built tree -/

theorem initialHeap_perm_aux (L : List (Char × Nat)) :
    ∀ acc : List HTree,
      L.foldl (fun hp p => MinHeap.insert hp (leafOf p)) acc ~ L.map leafOf ++ acc := by
  induction L with
  | nil => intro acc; simp
  | cons p ps ih =>
    intro acc
    rw [List.foldl_cons]
    refine (ih (MinHeap.insert acc (leafOf p))).trans ?_
    refine ((minHeapInsert_perm acc (leafOf p)).append_left _).trans ?_
    simp only [List.map_cons, List.cons_append]
    exact List.perm_middle

theorem initialHeap_perm (freqs : List (Char × Nat)) :
    initialHeap freqs ~ freqs.map leafOf := by
  have := initialHeap_perm_aux freqs []
  simpa using this

theorem initialHeap_length (freqs : List (Char × Nat)) :
    (initialHeap freqs).length = freqs.length := by
  have := (initialHeap_perm freqs).length_eq
  simpa using this

theorem poolFreq_map_leafOf (L : List (Char × Nat)) :
    poolFreq (L.map leafOf) = sumVals L := by
  induction L with
  | nil => rfl
  | cons p ps ih =>
    simp only [List.map_cons, poolFreq_cons, ih, sumVals, List.sum_cons]
    rfl

theorem poolChars_map_leafOf (L : List (Char × Nat)) :
    poolChars (L.map leafOf) = keysOf L := by
  induction L with
  | nil => rfl
  | cons p ps ih =>
    simp only [List.map_cons, poolChars_cons, ih, keysOf]
    rfl

theorem buildHuffmanTree_single (p : Char × Nat) :
    buildHuffmanTree [p]
      = HTree.node none p.2 (HTree.node (some p.1) p.2 HTree.null HTree.null) HTree.null := by
  have hinit : initialHeap [p] = [leafOf p] := by
    unfold initialHeap
    rw [List.foldl_cons, List.foldl_nil, minHeapInsert_nil]
  unfold buildHuffmanTree
  rw [hinit, if_pos (by rfl : ([leafOf p] : List HTree).length = 1), extractMin_singleton]
  rfl

theorem buildLoop_result_internal (heap : List HTree) (h : 1 < heap.length) :
    ∃ f l r, buildLoop heap = [HTree.node none f l r] := by
  rw [buildLoop_eq heap h]
  by_cases h2 : 1 < (MinHeap.insert (MinHeap.extractMin (MinHeap.extractMin heap).2).2
      (createNode none
        ((MinHeap.extractMin heap).1.freq +
          (MinHeap.extractMin (MinHeap.extractMin heap).2).1.freq)
        (MinHeap.extractMin heap).1
        (MinHeap.extractMin (MinHeap.extractMin heap).2).1)).length
  · exact buildLoop_result_internal _ h2
  · rw [buildLoop_eq_self _ h2]
    have hlen := minHeapInsert_length (MinHeap.extractMin (MinHeap.extractMin heap).2).2
      (createNode none
        ((MinHeap.extractMin heap).1.freq +
          (MinHeap.extractMin (MinHeap.extractMin heap).2).1.freq)
        (MinHeap.extractMin heap).1
        (MinHeap.extractMin (MinHeap.extractMin heap).2).1)
    have he : (MinHeap.extractMin (MinHeap.extractMin heap).2).2 = [] := by
      apply List.length_eq_zero.mp
      omega
    rw [he, minHeapInsert_nil]
    exact ⟨_, _, _, rfl⟩
termination_by heap.length
decreasing_by
  rw [buildLoop_next_length heap h]
  omega

theorem extractMin_of_buildLoop (heap : List HTree) (hne : heap ≠ []) :
    (MinHeap.extractMin (buildLoop heap)).1 :: [] ~ buildLoop heap := by
  have h1 := buildLoop_length heap hne
  obtain ⟨t, ht⟩ := List.length_eq_one.mp h1
  rw [ht, extractMin_singleton]

theorem buildHuffmanTree_shape (freqs : List (Char × Nat)) (hne : freqs ≠ []) :
    ∃ f l r, buildHuffmanTree freqs = HTree.node none f l r := by
  unfold buildHuffmanTree
  split
  · exact ⟨_, _, _, rfl⟩
  · rename_i h1
    have hlen : 0 < freqs.length := List.length_pos.mpr hne
    have h2 : 1 < (initialHeap freqs).length := by
      rw [initialHeap_length]
      rcases Nat.lt_or_ge 1 freqs.length with h | h
      · exact h
      · exfalso
        apply h1
        rw [initialHeap_length]
        omega
    obtain ⟨f, l, r, hb⟩ := buildLoop_result_internal _ h2
    rw [hb, extractMin_singleton]
    exact ⟨_, _, _, rfl⟩

theorem buildHuffmanTree_chars (freqs : List (Char × Nat)) :
    (buildHuffmanTree freqs).chars ~ keysOf freqs := by
  unfold buildHuffmanTree
  split
  · rename_i h1
    obtain ⟨t, ht⟩ := List.length_eq_one.mp h1
    rw [ht, extractMin_singleton]
    have hperm : [t] ~ freqs.map leafOf := ht ▸ initialHeap_perm freqs
    have := (poolChars_perm hperm)
    rw [poolChars_map_leafOf] at this
    refine List.Perm.trans ?_ this
    simp [poolChars, createNode, HTree.chars]
  · rename_i h1
    by_cases hne : freqs = []
    · subst hne
      have : initialHeap ([] : List (Char × Nat)) = [] := by
        simp [initialHeap]
      rw [this, buildLoop_eq_self [] (by simp)]
      simp [MinHeap.extractMin, HTree.chars, keysOf]
    · have h2 : 1 < (initialHeap freqs).length := by
        rw [initialHeap_length]
        have := List.length_pos.mpr hne
        rcases Nat.lt_or_ge 1 freqs.length with h | h
        · exact h
        · exfalso
          apply h1
          rw [initialHeap_length]
          omega
      have h3 := buildLoop_length _ (heap_ne_nil_of_one_lt _ h2)
      obtain ⟨t, ht⟩ := List.length_eq_one.mp h3
      rw [ht, extractMin_singleton]
      have hchars := buildLoop_poolChars (initialHeap freqs)
      rw [ht] at hchars
      have hinit := poolChars_perm (initialHeap_perm freqs)
      rw [poolChars_map_leafOf] at hinit
      have : poolChars [t] = t.chars := by simp [poolChars]
      rw [this] at hchars
      exact hchars.trans hinit

theorem buildHuffmanTree_freq (freqs : List (Char × Nat)) :
    (buildHuffmanTree freqs).freq = sumVals freqs := by
  unfold buildHuffmanTree
  split
  · rename_i h1
    obtain ⟨t, ht⟩ := List.length_eq_one.mp h1
    rw [ht, extractMin_singleton]
    have hperm : [t] ~ freqs.map leafOf := ht ▸ initialHeap_perm freqs
    have := poolFreq_perm hperm
    rw [poolFreq_map_leafOf] at this
    rw [createNode_freq]
    rw [poolFreq_cons] at this
    simp only [poolFreq, List.map_nil, List.sum_nil] at this
    dsimp only at this ⊢
    omega
  · rename_i h1
    by_cases hne : freqs = []
    · subst hne
      have : initialHeap ([] : List (Char × Nat)) = [] := by
        simp [initialHeap]
      rw [this, buildLoop_eq_self [] (by simp)]
      simp [MinHeap.extractMin, HTree.freq, sumVals]
    · have h2 : 1 < (initialHeap freqs).length := by
        rw [initialHeap_length]
        have := List.length_pos.mpr hne
        rcases Nat.lt_or_ge 1 freqs.length with h | h
        · exact h
        · exfalso
          apply h1
          rw [initialHeap_length]
          omega
      have h3 := buildLoop_length _ (heap_ne_nil_of_one_lt _ h2)
      obtain ⟨t, ht⟩ := List.length_eq_one.mp h3
      rw [ht, extractMin_singleton]
      have hfr := buildLoop_poolFreq (initialHeap freqs)
      rw [ht] at hfr
      have hinit := poolFreq_perm (initialHeap_perm freqs)
      rw [poolFreq_map_leafOf] at hinit
      rw [poolFreq_cons] at hfr
      simp only [poolFreq, List.map_nil, List.sum_nil] at hfr hinit
      dsimp only at hfr hinit ⊢
      omega

/-! ## String plumbing -/

theorem toList_eq_nil_iff (s : String) : s.toList = [] ↔ s = "" := by
  cases s with
  | mk d =>
    constructor
    · intro h
      have hd : d = [] := h
      subst hd
      rfl
    · intro h
      have hd : d = [] := congrArg String.data h
      exact hd

theorem toList_mk (l : List Char) : (String.mk l).toList = l := rfl

theorem mk_toList (s : String) : String.mk s.toList = s := rfl

theorem toList_append (s t : String) : (s ++ t).toList = s.toList ++ t.toList :=
  String.data_append s t

theorem push_mk_append (dec : String) (c : Char) (l : List Char) :
    dec.push c ++ String.mk l = dec ++ String.mk (c :: l) := by
  cases dec with
  | mk d =>
    show String.mk ((d ++ [c]) ++ l) = String.mk (d ++ (c :: l))
    exact congrArg String.mk (by simp)

theorem push_eq_append_mk (dec : String) (c : Char) :
    dec.push c = dec ++ String.mk [c] := rfl

theorem join_data (L : List String) :
    ∀ s : String, ((L.foldl (fun r t => r ++ t) s)).toList
      = s.toList ++ (L.map String.toList).flatten := by
  induction L with
  | nil => intro s; simp
  | cons x L ih =>
    intro s
    rw [List.foldl_cons, ih (s ++ x)]
    simp [toList_append]

theorem join_toList (L : List String) :
    (String.join L).toList = (L.map String.toList).flatten := by
  show ((L.foldl (fun r t => r ++ t) "")).toList = _
  rw [join_data]
  rfl

theorem utf16Units_bmp (c : Char) (h : c.toNat < 65536) : utf16Units c = [c.toNat] := by
  simp [utf16Units, h]

theorem char_eq_of_toNat_eq {a b : Char} (h : a.toNat = b.toNat) : a = b := by
  have h2 := congrArg Char.ofNat h
  rwa [Char.ofNat_toNat, Char.ofNat_toNat] at h2

theorem getValU_toNat {α : Type} (m : List (Char × α)) (c : Char) (h : c.toNat < 65536) :
    getValU m c.toNat = getVal m c := by
  induction m with
  | nil => rfl
  | cons p rest ih =>
    by_cases hp : p.1 = c
    · simp only [getValU, getVal, if_pos hp]
      rw [if_pos (by rw [hp, utf16Units_bmp c h])]
    · have hne : ¬ (utf16Units p.1 = [c.toNat]) := by
        intro hx
        by_cases hb : p.1.toNat < 65536
        · rw [utf16Units_bmp p.1 hb] at hx
          exact hp (char_eq_of_toNat_eq (by simpa using hx))
        · have hlen := congrArg List.length hx
          simp [utf16Units, hb] at hlen
      simp only [getValU, getVal, if_neg hne, if_neg hp]
      exact ih

theorem getValU_mem {α : Type} (m : List (Char × α)) (u : Nat) (v : α)
    (h : getValU m u = some v) : ∃ p ∈ m, p.2 = v ∧ utf16Units p.1 = [u] := by
  induction m with
  | nil => simp [getValU] at h
  | cons p rest ih =>
    by_cases hc : utf16Units p.1 = [u]
    · simp only [getValU, if_pos hc] at h
      cases h
      exact ⟨p, List.mem_cons_self _ _, rfl, hc⟩
    · simp only [getValU, if_neg hc] at h
      obtain ⟨q, hq, hv, hu⟩ := ih h
      exact ⟨q, List.mem_cons_of_mem _ hq, hv, hu⟩

theorem splitCodeUnits_bmp_aux (cs : List Char) (h : ∀ c ∈ cs, c.toNat < 65536) :
    (cs.map utf16Units).flatten = cs.map Char.toNat := by
  induction cs with
  | nil => rfl
  | cons c cs ih =>
    simp only [List.map_cons, List.flatten_cons,
      utf16Units_bmp c (h c (List.mem_cons_self _ _)),
      ih (fun x hx => h x (List.mem_cons_of_mem _ hx))]
    rfl

theorem encodeText_bmp (text : String) (codes : List (Char × String))
    (h : ∀ c ∈ text.toList, c.toNat < 65536) :
    encodeText text codes
      = String.join (text.toList.map (fun c => ((getVal codes c).getD ""))) := by
  unfold encodeText splitCodeUnits
  rw [splitCodeUnits_bmp_aux text.toList h, List.map_map]
  congr 1
  apply List.map_congr_left
  intro c hc
  show (getValU codes c.toNat).getD "" = _
  rw [getValU_toNat codes c (h c hc)]

theorem encodeText_toList (text : String) (codes : List (Char × String))
    (h : ∀ c ∈ text.toList, c.toNat < 65536) :
    (encodeText text codes).toList
      = (text.toList.map (fun c => ((getVal codes c).getD "").toList)).flatten := by
  rw [encodeText_bmp text codes h, join_toList, List.map_map]
  rfl

/-! ## `generateCodes` as root-to-leaf paths -/

theorem leafPaths_fst (t : HTree) : (leafPaths t).map Prod.fst = t.chars := by
  induction t with
  | null => rfl
  | node c f l r ihl ihr =>
    cases c with
    | some c0 => rfl
    | none =>
      simp only [leafPaths, HTree.chars, List.map_append, List.map_map]
      rw [← ihl, ← ihr]
      rfl

theorem leafPaths_internal_ne_nil (f : Nat) (l r : HTree) :
    ∀ q ∈ leafPaths (HTree.node none f l r), q.2 ≠ [] := by
  intro q hq
  simp only [leafPaths, List.mem_append, List.mem_map] at hq
  rcases hq with ⟨q0, _, hq0⟩ | ⟨q0, _, hq0⟩ <;> rw [← hq0] <;> simp

theorem generateCodes_eq (t : HTree) :
    ∀ (pre : String) (acc : List (Char × String)), t.chars.Nodup →
      (∀ c ∈ t.chars, c ∉ keysOf acc) →
      generateCodes t pre acc =
        acc ++ (leafPaths t).map (fun q =>
          (q.1, if pre.toList ++ q.2 = [] then "0" else String.mk (pre.toList ++ q.2))) := by
  induction t with
  | null => intro pre acc _ _; simp [generateCodes, leafPaths]
  | node c f l r ihl ihr =>
    intro pre acc hnd hdis
    cases c with
    | some c0 =>
      have hc0 : c0 ∈ (HTree.node (some c0) f l r).chars := by simp [HTree.chars]
      have habs : (getVal acc c0).isSome = false := by
        rw [Bool.eq_false_iff]
        intro hs
        exact hdis c0 hc0 ((getVal_isSome_iff acc c0).mp hs)
      show setKey acc c0 (if pre = "" then "0" else pre) = _
      unfold setKey
      rw [habs]
      simp only [Bool.false_eq_true, if_false, leafPaths, List.map_cons, List.map_nil,
        List.append_nil]
      congr 2
      by_cases hp : pre = ""
      · subst hp
        simp
      · have hne : pre.toList ≠ [] := fun h => hp ((toList_eq_nil_iff pre).mp h)
        rw [if_neg hp, if_neg (by simpa using hne), mk_toList]
    | none =>
      have hnd2 := List.nodup_append.mp hnd
      have hl := ihl (pre ++ "0") acc hnd2.1
        (fun c hc => hdis c (by simp [HTree.chars, hc]))
      show generateCodes r (pre ++ "1") (generateCodes l (pre ++ "0") acc) = _
      rw [hl]
      have hkeys : keysOf (acc ++ (leafPaths l).map (fun q =>
          (q.1, if (pre ++ "0").toList ++ q.2 = [] then "0"
            else String.mk ((pre ++ "0").toList ++ q.2))))
          = keysOf acc ++ l.chars := by
        simp only [keysOf, List.map_append, List.map_map]
        rw [← leafPaths_fst l]
        rfl
      have hr := ihr (pre ++ "1")
        (acc ++ (leafPaths l).map (fun q =>
          (q.1, if (pre ++ "0").toList ++ q.2 = [] then "0"
            else String.mk ((pre ++ "0").toList ++ q.2))))
        hnd2.2.1
        (by
          intro c hc
          rw [hkeys]
          simp only [List.mem_append]
          push_neg
          constructor
          · exact hdis c (by simp [HTree.chars, hc])
          · intro hcl
            exact absurd hc (hnd2.2.2 hcl))
      rw [hr, List.append_assoc]
      congr 1
      simp only [leafPaths, List.map_append, List.map_map]
      congr 1
      · apply List.map_congr_left
        intro q _
        have h0 : (pre ++ "0").toList ++ q.2 = pre.toList ++ ('0' :: q.2) := by
          rw [toList_append]
          simp [List.append_assoc]
        simp only [Function.comp, h0]
      · apply List.map_congr_left
        intro q _
        have h1 : (pre ++ "1").toList ++ q.2 = pre.toList ++ ('1' :: q.2) := by
          rw [toList_append]
          simp [List.append_assoc]
        simp only [Function.comp, h1]

theorem codes_eq_of_internal (f : Nat) (l r : HTree)
    (hnd : (HTree.node none f l r).chars.Nodup) :
    generateCodes (HTree.node none f l r) "" []
      = (leafPaths (HTree.node none f l r)).map (fun q => (q.1, String.mk q.2)) := by
  rw [generateCodes_eq (HTree.node none f l r) "" [] hnd (by simp [keysOf])]
  rw [List.nil_append]
  apply List.map_congr_left
  intro q hq
  have hne := leafPaths_internal_ne_nil f l r q hq
  have : ("" : String).toList ++ q.2 = q.2 := rfl
  rw [this, if_neg hne]

theorem keysOf_codes_of_internal (f : Nat) (l r : HTree)
    (hnd : (HTree.node none f l r).chars.Nodup) :
    keysOf (generateCodes (HTree.node none f l r) "" [])
      = (HTree.node none f l r).chars := by
  rw [codes_eq_of_internal f l r hnd]
  simp only [keysOf, List.map_map]
  rw [← leafPaths_fst (HTree.node none f l r)]
  rfl

theorem codes_getVal_of_mem (f : Nat) (l r : HTree)
    (hnd : (HTree.node none f l r).chars.Nodup) (c : Char)
    (hc : c ∈ (HTree.node none f l r).chars) :
    ∃ p, (c, p) ∈ leafPaths (HTree.node none f l r) ∧ p ≠ [] ∧
      getVal (generateCodes (HTree.node none f l r) "" []) c = some (String.mk p) := by
  rw [← leafPaths_fst] at hc
  obtain ⟨q, hq, hqc⟩ := List.mem_map.mp hc
  refine ⟨q.2, ?_, leafPaths_internal_ne_nil f l r q hq, ?_⟩
  · rw [← hqc]
    simpa using hq
  · rw [codes_eq_of_internal f l r hnd]
    apply getVal_of_mem_nodup
    · exact List.mem_map.mpr ⟨q, hq, by rw [hqc]⟩
    · have hk : keysOf ((leafPaths (HTree.node none f l r)).map
          (fun q => (q.1, String.mk q.2))) = (HTree.node none f l r).chars := by
        simp only [keysOf, List.map_map]
        rw [← leafPaths_fst (HTree.node none f l r)]
        rfl
      rw [hk]
      exact hnd

theorem codes_getVal_inv (f : Nat) (l r : HTree)
    (hnd : (HTree.node none f l r).chars.Nodup) (c : Char) (s : String)
    (h : getVal (generateCodes (HTree.node none f l r) "" []) c = some s) :
    ∃ q ∈ leafPaths (HTree.node none f l r), q.1 = c ∧ s = String.mk q.2 ∧ q.2 ≠ [] := by
  rw [codes_eq_of_internal f l r hnd] at h
  have hmem := getVal_mem _ _ _ h
  obtain ⟨q, hq, hqe⟩ := List.mem_map.mp hmem
  have h1 : q.1 = c := congrArg Prod.fst hqe
  have h2 : String.mk q.2 = s := congrArg Prod.snd hqe
  exact ⟨q, hq, h1, h2.symm, leafPaths_internal_ne_nil f l r q hq⟩

/-! ## Walk lemmas -/

theorem leafPaths_walks (t : HTree) :
    ∀ q ∈ leafPaths t, ∃ u, Walks t q.2 u ∧ u.char = some q.1 := by
  induction t with
  | null => intro q hq; simp [leafPaths] at hq
  | node c f l r ihl ihr =>
    cases c with
    | some c0 =>
      intro q hq
      simp only [leafPaths, List.mem_singleton] at hq
      subst hq
      exact ⟨HTree.node (some c0) f l r, Walks.here (some c0) f l r rfl, rfl⟩
    | none =>
      intro q hq
      simp only [leafPaths, List.mem_append, List.mem_map] at hq
      rcases hq with ⟨q0, hq0, hqe⟩ | ⟨q0, hq0, hqe⟩
      · obtain ⟨u, hu, huc⟩ := ihl q0 hq0
        subst hqe
        exact ⟨u, Walks.left f r hu, huc⟩
      · obtain ⟨u, hu, huc⟩ := ihr q0 hq0
        subst hqe
        exact ⟨u, Walks.right f l hu, huc⟩

theorem walks_prefix_eq {t : HTree} {p₁ : List Char} {u₁ : HTree}
    (w₁ : Walks t p₁ u₁) :
    ∀ {p₂ : List Char} {u₂ : HTree}, Walks t p₂ u₂ → p₁ <+: p₂ → p₁ = p₂ := by
  induction w₁ with
  | here c f l r hc =>
    intro p₂ u₂ w₂ _
    cases w₂ with
    | here _ _ _ _ _ => rfl
    | left _ _ _ => simp at hc
    | right _ _ _ => simp at hc
  | left f r hw ih =>
    intro p₂ u₂ w₂ hpre
    cases w₂ with
    | here _ _ _ _ hc => simp at hc
    | left f2 r2 hw2 =>
      rw [List.cons_prefix_cons] at hpre
      exact congrArg _ (ih hw2 hpre.2)
    | right f2 l2 hw2 =>
      rw [List.cons_prefix_cons] at hpre
      exact absurd hpre.1 (by decide)
  | right f l hw ih =>
    intro p₂ u₂ w₂ hpre
    cases w₂ with
    | here _ _ _ _ hc => simp at hc
    | right f2 l2 hw2 =>
      rw [List.cons_prefix_cons] at hpre
      exact congrArg _ (ih hw2 hpre.2)
    | left f2 r2 hw2 =>
      rw [List.cons_prefix_cons] at hpre
      exact absurd hpre.1 (by decide)

/-! ## Decoder lemmas -/

theorem decodeGo_walks (root : HTree) {cur : HTree} {p : List Char} {u : HTree}
    (w : Walks cur p u) (rest : List Char) (dec : String) :
    decodeGo root (p ++ rest) cur dec = decodeGo root rest u dec := by
  induction w with
  | here c f l r hc => rfl
  | left f r hw ih =>
    show decodeGo root ('0' :: _ ++ rest) _ dec = _
    rw [List.cons_append]
    simp only [decodeGo, if_pos rfl]
    exact ih
  | right f l hw ih =>
    show decodeGo root ('1' :: _ ++ rest) _ dec = _
    rw [List.cons_append]
    simp only [decodeGo]
    rw [if_neg (by decide)]
    exact ih

theorem decodeGo_leaf_cons (f0 : Nat) (l0 r0 : HTree) (c : Char) (fu : Nat)
    (lu ru : HTree) (b : Char) (bs : List Char) (dec : String) :
    decodeGo (HTree.node none f0 l0 r0) (b :: bs) (HTree.node (some c) fu lu ru) dec
      = decodeGo (HTree.node none f0 l0 r0) (b :: bs) (HTree.node none f0 l0 r0)
          (dec.push c) := by
  simp only [decodeGo, HTree.left, HTree.right]

theorem decodeGo_concat (f0 : Nat) (l0 r0 : HTree) (code : Char → List Char) :
    ∀ cs : List Char, cs ≠ [] →
      (∀ c ∈ cs, ∃ u, Walks (HTree.node none f0 l0 r0) (code c) u ∧
        HTree.char u = some c) →
      (∀ c ∈ cs, code c ≠ []) →
      ∀ dec : String,
        decodeGo (HTree.node none f0 l0 r0) ((cs.map code).flatten)
          (HTree.node none f0 l0 r0) dec = some (dec ++ String.mk cs) := by
  intro cs
  induction cs with
  | nil => intro h; exact absurd rfl h
  | cons c cs₂ ih =>
    intro _ hw hne dec
    obtain ⟨u, hu, huc⟩ := hw c (List.mem_cons_self _ _)
    obtain ⟨cu, fu, lu, ru, hucases⟩ : ∃ cu fu lu ru, u = HTree.node cu fu lu ru := by
      cases u with
      | null => simp [HTree.char] at huc
      | node cu fu lu ru => exact ⟨cu, fu, lu, ru, rfl⟩
    subst hucases
    have hcu : cu = some c := huc
    subst hcu
    cases cs₂ with
    | nil =>
      have hfl : (([c].map code).flatten) = code c ++ [] := by simp
      rw [hfl, decodeGo_walks _ hu [] dec]
      show some (dec.push c) = _
      rw [push_eq_append_mk]
    | cons c₂ cs₃ =>
      have hfl : (((c :: c₂ :: cs₃).map code).flatten)
          = code c ++ ((c₂ :: cs₃).map code).flatten := by simp
      rw [hfl, decodeGo_walks _ hu _ dec]
      have hrne : ((c₂ :: cs₃).map code).flatten ≠ [] := by
        have h2 : code c₂ ≠ [] := hne c₂ (by simp)
        simp only [List.map_cons, List.flatten_cons]
        intro hcontra
        exact h2 (List.append_eq_nil.mp hcontra).1
      obtain ⟨b, bs, hbs⟩ := List.exists_cons_of_ne_nil hrne
      rw [hbs, decodeGo_leaf_cons, ← hbs]
      rw [ih (by simp) (fun x hx => hw x (List.mem_cons_of_mem _ hx))
        (fun x hx => hne x (List.mem_cons_of_mem _ hx)) (dec.push c)]
      rw [push_mk_append]

theorem decodeText_node (encoded : String) (c0 : Option Char) (f : Nat) (l r : HTree) :
    decodeText encoded (HTree.node c0 f l r)
      = if encoded = "" then some ""
        else decodeGo (HTree.node c0 f l r) encoded.toList (HTree.node c0 f l r) "" := rfl

theorem huffman_roundTrip_aux (text : String) (hne : text ≠ "")
    (hbmp : ∀ c ∈ text.toList, c.toNat < 65536) :
    decodeText
      (encodeText text (generateCodes (buildHuffmanTree (calculateFrequencies text)) "" []))
      (buildHuffmanTree (calculateFrequencies text)) = some text := by
  obtain ⟨f, l, r, hroot⟩ := buildHuffmanTree_shape _ (calculateFrequencies_ne_nil text hne)
  have hndchars : (buildHuffmanTree (calculateFrequencies text)).chars.Nodup :=
    (buildHuffmanTree_chars _).nodup_iff.mpr (calculateFrequencies_nodup text)
  have hmemchars : ∀ c ∈ text.toList,
      c ∈ (buildHuffmanTree (calculateFrequencies text)).chars := by
    intro c hc
    exact (buildHuffmanTree_chars _).mem_iff.mpr
      ((mem_keysOf_calculateFrequencies text c).mpr hc)
  rw [hroot] at hndchars hmemchars ⊢
  have hcode : ∀ c ∈ text.toList,
      ∃ u, Walks (HTree.node none f l r)
          ((fun c => ((getVal (generateCodes (HTree.node none f l r) "" []) c).getD "").toList) c) u
        ∧ HTree.char u = some c := by
    intro c hc
    obtain ⟨p, hpmem, hpne, hpval⟩ := codes_getVal_of_mem f l r hndchars c (hmemchars c hc)
    simp only [hpval, Option.getD_some, toList_mk]
    obtain ⟨u, hu, huc⟩ := leafPaths_walks _ (c, p) hpmem
    exact ⟨u, hu, huc⟩
  have hcodene : ∀ c ∈ text.toList,
      ((fun c => ((getVal (generateCodes (HTree.node none f l r) "" []) c).getD "").toList) c)
        ≠ [] := by
    intro c hc
    obtain ⟨p, hpmem, hpne, hpval⟩ := codes_getVal_of_mem f l r hndchars c (hmemchars c hc)
    simp only [hpval, Option.getD_some, toList_mk]
    exact hpne
  have htlne : text.toList ≠ [] := by
    intro he
    apply hne
    cases text with
    | mk d => exact congrArg String.mk he
  have henc := encodeText_toList text (generateCodes (HTree.node none f l r) "" []) hbmp
  have hencne : encodeText text (generateCodes (HTree.node none f l r) "" []) ≠ "" := by
    intro he
    obtain ⟨c0, cs0, hc0⟩ := List.exists_cons_of_ne_nil htlne
    have h0 : (encodeText text (generateCodes (HTree.node none f l r) "" [])).toList = [] := by
      rw [he]
      rfl
    rw [henc, hc0] at h0
    simp only [List.map_cons, List.flatten_cons] at h0
    exact hcodene c0 (by rw [hc0]; exact List.mem_cons_self _ _) (List.append_eq_nil.mp h0).1
  rw [decodeText_node, if_neg hencne, henc]
  rw [decodeGo_concat f l r _ text.toList htlne hcode hcodene ""]
  rfl

/-! ## Claim theorems C1 to C8 and C10 -/

/-- Claim C1 (corrected): the round trip holds for every non-empty input
text all of whose symbols are single UTF-16 code units (below 0x10000) — the
decoded string obtained by running `decodeText` on the bitstring
`encodeText` produces (with the code table and tree built from the same
text's frequencies, exactly as `huffmanEncode` does) is the original text.
The unconditional claim is false of the program: `split('')` cuts an astral
symbol into two lone surrogate halves whose code-table lookups miss, so such
symbols vanish from the bitstring (`huffman_roundTrip_cex`). -/
theorem huffman_roundTrip (text : String) (hne : text ≠ "")
    (hbmp : ∀ c ∈ text.toList, c.toNat < 65536) :
    decodeText
      (encodeText text (generateCodes (buildHuffmanTree (calculateFrequencies text)) "" []))
      (buildHuffmanTree (calculateFrequencies text)) = some text :=
  huffman_roundTrip_aux text hne hbmp

/-- Witness for C1 at the concrete input "ab" (both symbols are single code
units). -/
theorem huffman_roundTrip_witness :
    "ab" ≠ "" ∧ (∀ c ∈ ("ab" : String).toList, c.toNat < 65536) ∧
      decodeText
        (encodeText "ab" (generateCodes (buildHuffmanTree (calculateFrequencies "ab")) "" []))
        (buildHuffmanTree (calculateFrequencies "ab")) = some "ab" :=
  ⟨by decide, by decide, huffman_roundTrip "ab" (by decide) (by decide)⟩

/-- Counterexample to the original C1: on the single astral symbol "😀" the
encoder looks up the two surrogate halves, both miss the code table, the
encoded bitstring is empty, and decoding yields "" rather than "😀". -/
theorem huffman_roundTrip_cex :
    ("😀" : String) ≠ "" ∧
      decodeText
        (encodeText "😀" (generateCodes (buildHuffmanTree (calculateFrequencies "😀")) "" []))
        (buildHuffmanTree (calculateFrequencies "😀")) = some "" ∧
      ("" : String) ≠ "😀" := by
  have hfr : calculateFrequencies "😀" = [('😀', 1)] := rfl
  refine ⟨by decide, ?_, by decide⟩
  rw [hfr, buildHuffmanTree_single ('😀', 1)]
  rfl

/-- Claim C2 (corrected): for a text all of whose symbols are single UTF-16
code units, every code unit `encodeText` looks up is a key hit of the code
table generated from the same text's frequencies, so the lookup cannot miss.
The unconditional claim is false of the program: for a text with astral
symbols the encoder looks up lone surrogate halves, which are never keys of
the table (`encodeText_lookup_cex`). -/
theorem encodeText_lookup_isSome (text : String)
    (hbmp : ∀ c ∈ text.toList, c.toNat < 65536)
    (u : Nat) (hu : u ∈ splitCodeUnits text) :
    (getValU (generateCodes (buildHuffmanTree (calculateFrequencies text)) "" []) u).isSome := by
  have hu2 : u ∈ (text.toList.map utf16Units).flatten := hu
  obtain ⟨l0, hl0, hu0⟩ := List.mem_flatten.mp hu2
  obtain ⟨c, hc, hce⟩ := List.mem_map.mp hl0
  have hcb : c.toNat < 65536 := hbmp c hc
  rw [← hce, utf16Units_bmp c hcb] at hu0
  have huc : u = c.toNat := by simpa using hu0
  subst huc
  rw [getValU_toNat _ c hcb]
  have hne : text ≠ "" := by
    intro he
    rw [he] at hc
    simp at hc
  obtain ⟨f, l, r, hroot⟩ := buildHuffmanTree_shape _ (calculateFrequencies_ne_nil text hne)
  have hndchars : (buildHuffmanTree (calculateFrequencies text)).chars.Nodup :=
    (buildHuffmanTree_chars _).nodup_iff.mpr (calculateFrequencies_nodup text)
  have hmemchars : c ∈ (buildHuffmanTree (calculateFrequencies text)).chars :=
    (buildHuffmanTree_chars _).mem_iff.mpr ((mem_keysOf_calculateFrequencies text c).mpr hc)
  rw [hroot] at hndchars hmemchars ⊢
  obtain ⟨p, _, _, hpval⟩ := codes_getVal_of_mem f l r hndchars c hmemchars
  rw [hpval]
  rfl

/-- Witness for C2 at the concrete input "ab" and the code unit of 'a'. -/
theorem encodeText_lookup_isSome_witness :
    (∀ c ∈ ("ab" : String).toList, c.toNat < 65536) ∧
      Char.toNat 'a' ∈ splitCodeUnits "ab" ∧
      (getValU (generateCodes (buildHuffmanTree (calculateFrequencies "ab")) "" [])
        (Char.toNat 'a')).isSome :=
  ⟨by decide, by decide,
    encodeText_lookup_isSome "ab" (by decide) (Char.toNat 'a') (by decide)⟩

/-- Counterexample to the original C2: encoding "😀" looks up the high
surrogate half 55357 (0xD83D), which is not a key of the code table built
from "😀"'s frequencies — the lookup-failure case is reachable. -/
theorem encodeText_lookup_cex :
    55357 ∈ splitCodeUnits "😀" ∧
      getValU (generateCodes (buildHuffmanTree (calculateFrequencies "😀")) "" []) 55357
        = none := by
  refine ⟨by decide, ?_⟩
  have hfr : calculateFrequencies "😀" = [('😀', 1)] := rfl
  rw [hfr, buildHuffmanTree_single ('😀', 1)]
  rfl

/-- Claim C3: the generated code table is prefix-free — whenever the code of
one symbol is a prefix of the code of another symbol, the two codes are in
fact the same string, so no code is a proper prefix of another. -/
theorem codes_prefix_free (text : String) (c₁ c₂ : Char) (s₁ s₂ : String)
    (h₁ : getVal (generateCodes (buildHuffmanTree (calculateFrequencies text)) "" []) c₁
      = some s₁)
    (h₂ : getVal (generateCodes (buildHuffmanTree (calculateFrequencies text)) "" []) c₂
      = some s₂)
    (hpre : s₁.toList <+: s₂.toList) : s₁ = s₂ := by
  by_cases hne : text = ""
  · subst hne
    have hroot : buildHuffmanTree (calculateFrequencies "") = HTree.null := by
      have h0 : initialHeap (calculateFrequencies "") = [] := rfl
      unfold buildHuffmanTree
      rw [h0, buildLoop_eq_self [] (by simp)]
      rfl
    rw [hroot] at h₁
    simp [generateCodes, getVal] at h₁
  · obtain ⟨f, l, r, hroot⟩ := buildHuffmanTree_shape _ (calculateFrequencies_ne_nil text hne)
    have hndchars : (buildHuffmanTree (calculateFrequencies text)).chars.Nodup :=
      (buildHuffmanTree_chars _).nodup_iff.mpr (calculateFrequencies_nodup text)
    rw [hroot] at hndchars h₁ h₂
    obtain ⟨q₁, hq₁, hqc₁, hqs₁, _⟩ := codes_getVal_inv f l r hndchars c₁ s₁ h₁
    obtain ⟨q₂, hq₂, hqc₂, hqs₂, _⟩ := codes_getVal_inv f l r hndchars c₂ s₂ h₂
    obtain ⟨u₁, hw₁, _⟩ := leafPaths_walks _ q₁ hq₁
    obtain ⟨u₂, hw₂, _⟩ := leafPaths_walks _ q₂ hq₂
    have hp : q₁.2 <+: q₂.2 := by
      rw [hqs₁, hqs₂] at hpre
      simpa [toList_mk] using hpre
    have heq : q₁.2 = q₂.2 := walks_prefix_eq hw₁ hw₂ hp
    rw [hqs₁, hqs₂, heq]

/-- Witness for C3 at the concrete input "a" (both lookups at 'a'). -/
theorem codes_prefix_free_witness :
    getVal (generateCodes (buildHuffmanTree (calculateFrequencies "a")) "" []) 'a'
        = some "0" ∧
      ("0" : String).toList <+: ("0" : String).toList ∧ ("0" : String) = "0" := by
  have hfr : calculateFrequencies "a" = [('a', 1)] := rfl
  have htree : buildHuffmanTree [('a', 1)]
      = HTree.node none 1 (HTree.node (some 'a') 1 HTree.null HTree.null) HTree.null := by
    unfold buildHuffmanTree
    have hinit : initialHeap [('a', 1)] = [HTree.node (some 'a') 1 HTree.null HTree.null] := by
      unfold initialHeap
      rw [List.foldl_cons, List.foldl_nil, minHeapInsert_nil]
      rfl
    rw [hinit,
      if_pos (by rfl : ([HTree.node (some 'a') 1 HTree.null HTree.null] : List HTree).length = 1),
      extractMin_singleton]
    rfl
  have hval : getVal (generateCodes (buildHuffmanTree (calculateFrequencies "a")) "" []) 'a'
      = some "0" := by
    rw [hfr, htree]
    rfl
  exact ⟨hval, List.prefix_rfl,
    codes_prefix_free "a" 'a' 'a' "0" "0" hval hval List.prefix_rfl⟩

/-- Claim C4: for a non-empty text the weight of the root of the tree built
from the text's frequency table is the text's length (the sum of all
frequency counts). -/
theorem rootFreq_eq_length (text : String) (hne : text ≠ "") :
    (buildHuffmanTree (calculateFrequencies text)).freq = text.length := by
  rw [buildHuffmanTree_freq, sumVals_calculateFrequencies]

/-- Witness for C4 at the concrete input "ab". -/
theorem rootFreq_eq_length_witness :
    "ab" ≠ "" ∧ (buildHuffmanTree (calculateFrequencies "ab")).freq = ("ab" : String).length :=
  ⟨by decide, rootFreq_eq_length "ab" (by decide)⟩

/-- Claim C5: `huffmanEncode` is a pure deterministic function — two
invocations on the same text yield the same frequency table, code table and
encoded bitstring. -/
theorem huffmanEncode_deterministic (text : String) (r₁ r₂ : HuffmanResult)
    (h₁ : huffmanEncode text = some r₁) (h₂ : huffmanEncode text = some r₂) :
    r₁.frequencies = r₂.frequencies ∧ r₁.codes = r₂.codes ∧ r₁.encoded = r₂.encoded := by
  rw [h₁] at h₂
  cases h₂
  exact ⟨rfl, rfl, rfl⟩

/-- Witness for C5 at the concrete input "". -/
theorem huffmanEncode_deterministic_witness :
    huffmanEncode "" = some ⟨[], [], "", "", 0, 0, 0⟩ ∧
      (HuffmanResult.frequencies ⟨[], [], "", "", 0, 0, 0⟩
          = HuffmanResult.frequencies ⟨[], [], "", "", 0, 0, 0⟩ ∧
        HuffmanResult.codes ⟨[], [], "", "", 0, 0, 0⟩
          = HuffmanResult.codes ⟨[], [], "", "", 0, 0, 0⟩ ∧
        HuffmanResult.encoded ⟨[], [], "", "", 0, 0, 0⟩
          = HuffmanResult.encoded ⟨[], [], "", "", 0, 0, 0⟩) :=
  ⟨rfl, huffmanEncode_deterministic "" ⟨[], [], "", "", 0, 0, 0⟩ ⟨[], [], "", "", 0, 0, 0⟩
    rfl rfl⟩

theorem encoded_units_flatten (codes : List (Char × String)) (P : Char → Prop)
    (hv : ∀ p ∈ codes, P p.1 ∧ getVal codes p.1 = some p.2) :
    ∀ us : List Nat, ∃ cs : List Char, (∀ c ∈ cs, P c) ∧
      (us.map (fun u => ((getValU codes u).getD "").toList)).flatten
        = (cs.map (fun c => ((getVal codes c).getD "").toList)).flatten := by
  intro us
  induction us with
  | nil => exact ⟨[], by simp, rfl⟩
  | cons u us ih =>
    obtain ⟨cs, hP, hflat⟩ := ih
    cases hg : getValU codes u with
    | none =>
      refine ⟨cs, hP, ?_⟩
      simp only [List.map_cons, List.flatten_cons, hg]
      simpa using hflat
    | some v =>
      obtain ⟨p, hpmem, hpv, hpu⟩ := getValU_mem codes u v hg
      refine ⟨p.1 :: cs, ?_, ?_⟩
      · intro c hc
        rcases List.mem_cons.mp hc with hc | hc
        · exact hc ▸ (hv p hpmem).1
        · exact hP c hc
      · simp only [List.map_cons, List.flatten_cons, hg, hflat]
        congr 1
        rw [(hv p hpmem).2, hpv]

/-- The decode pass of `huffmanEncode` succeeds on every non-empty input,
astral symbols included: each looked-up code unit contributes either a whole
leaf code or (on a miss) the empty string, so the bitstring is a
concatenation of whole leaf codes and the walk never falls off the tree. -/
theorem decodeText_encode_isSome (text : String) (hne : text ≠ "") :
    (decodeText
      (encodeText text (generateCodes (buildHuffmanTree (calculateFrequencies text)) "" []))
      (buildHuffmanTree (calculateFrequencies text))).isSome := by
  obtain ⟨f, l, r, hroot⟩ := buildHuffmanTree_shape _ (calculateFrequencies_ne_nil text hne)
  have hndchars : (buildHuffmanTree (calculateFrequencies text)).chars.Nodup :=
    (buildHuffmanTree_chars _).nodup_iff.mpr (calculateFrequencies_nodup text)
  rw [hroot] at hndchars ⊢
  have hv : ∀ p ∈ generateCodes (HTree.node none f l r) "" [],
      p.1 ∈ (HTree.node none f l r).chars
        ∧ getVal (generateCodes (HTree.node none f l r) "" []) p.1 = some p.2 := by
    intro p hp
    have hkeys := keysOf_codes_of_internal f l r hndchars
    constructor
    · rw [← hkeys]
      exact List.mem_map_of_mem Prod.fst hp
    · apply getVal_of_mem_nodup
      · have hpp : (p.1, p.2) = p := Prod.mk.eta
        rw [hpp]
        exact hp
      · rw [hkeys]
        exact hndchars
  have henc : (encodeText text (generateCodes (HTree.node none f l r) "" [])).toList
      = ((splitCodeUnits text).map
          (fun u => ((getValU (generateCodes (HTree.node none f l r) "" []) u).getD
            "").toList)).flatten := by
    unfold encodeText
    rw [join_toList, List.map_map]
    rfl
  obtain ⟨cs, hcsP, hflat⟩ := encoded_units_flatten
    (generateCodes (HTree.node none f l r) "" [])
    (fun c => c ∈ (HTree.node none f l r).chars) hv (splitCodeUnits text)
  by_cases hz : encodeText text (generateCodes (HTree.node none f l r) "" []) = ""
  · rw [decodeText_node, if_pos hz]
    rfl
  · have hcsne : cs ≠ [] := by
      intro hx
      apply hz
      have h0 : (encodeText text (generateCodes (HTree.node none f l r) "" [])).toList
          = [] := by
        rw [henc, hflat, hx]
        rfl
      exact (toList_eq_nil_iff _).mp h0
    have hcode : ∀ c ∈ cs,
        ∃ u, Walks (HTree.node none f l r)
            ((fun c => ((getVal (generateCodes (HTree.node none f l r) "" []) c).getD
              "").toList) c) u
          ∧ HTree.char u = some c := by
      intro c hc
      obtain ⟨p, hpmem, hpne, hpval⟩ := codes_getVal_of_mem f l r hndchars c (hcsP c hc)
      simp only [hpval, Option.getD_some, toList_mk]
      obtain ⟨u, hu, huc⟩ := leafPaths_walks _ (c, p) hpmem
      exact ⟨u, hu, huc⟩
    have hcodene : ∀ c ∈ cs,
        ((fun c => ((getVal (generateCodes (HTree.node none f l r) "" []) c).getD
          "").toList) c) ≠ [] := by
      intro c hc
      obtain ⟨p, hpmem, hpne, hpval⟩ := codes_getVal_of_mem f l r hndchars c (hcsP c hc)
      simp only [hpval, Option.getD_some, toList_mk]
      exact hpne
    rw [decodeText_node, if_neg hz, henc, hflat]
    rw [decodeGo_concat f l r _ cs hcsne hcode hcodene ""]
    rfl

/-- Claim C6: `huffmanEncode` is total — on every input string, including the
empty one, it returns a result (the internal decode pass never hits the
null-dereferencing failure modelled by `none`). -/
theorem huffmanEncode_total (text : String) : (huffmanEncode text).isSome := by
  by_cases h : text = ""
  · subst h
    rfl
  · simp only [huffmanEncode]
    rw [if_neg h]
    obtain ⟨d, hd⟩ := Option.isSome_iff_exists.mp (decodeText_encode_isSome text h)
    rw [hd]
    rfl

/-- Claim C7: on the single-symbol input "aaaa" the engine builds the
asymmetric wrapper tree (internal node, sole leaf as left child, no right
child) and returns code table `{a: "0"}`, encoded "0000", decoded "aaaa". -/
theorem huffmanEncode_single_symbol :
    buildHuffmanTree (calculateFrequencies "aaaa")
        = HTree.node none 4 (HTree.node (some 'a') 4 HTree.null HTree.null) HTree.null ∧
      ∃ r, huffmanEncode "aaaa" = some r ∧ r.codes = [('a', "0")] ∧ r.encoded = "0000"
        ∧ r.decoded = "aaaa" := by
  have hfr : calculateFrequencies "aaaa" = [('a', 4)] := rfl
  have htree : buildHuffmanTree (calculateFrequencies "aaaa")
      = HTree.node none 4 (HTree.node (some 'a') 4 HTree.null HTree.null) HTree.null := by
    rw [hfr, buildHuffmanTree_single ('a', 4)]
  refine ⟨htree, ?_⟩
  simp only [huffmanEncode]
  rw [if_neg (by decide), hfr, show buildHuffmanTree [('a', 4)]
    = HTree.node none 4 (HTree.node (some 'a') 4 HTree.null HTree.null) HTree.null
    from buildHuffmanTree_single ('a', 4)]
  exact ⟨_, rfl, rfl, rfl, rfl⟩

/-- Claim C8: on the empty input `huffmanEncode` returns the fully zeroed
result rather than failing. -/
theorem huffmanEncode_empty :
    huffmanEncode "" = some ⟨[], [], "", "", 0, 0, 0⟩ := rfl

/-- Claim C10: `decodeText` is not total on arbitrary bitstrings — on the
single-symbol wrapper tree (whose internal node has no right child) the
bitstring "1" drives the walk into the absent child, and the subsequent
leaf check dereferences null; the embedding returns `none` (the thrown
`TypeError`). -/
theorem decodeText_not_total :
    decodeText "1" (buildHuffmanTree (calculateFrequencies "a")) = none := by
  have hfr : calculateFrequencies "a" = [('a', 1)] := rfl
  rw [hfr, buildHuffmanTree_single ('a', 1)]
  rfl

/-! ## getD bookkeeping for heap-order proofs -/

theorem getD_set_self (l : List HTree) (i : Nat) (a : HTree) (h : i < l.length) :
    (l.set i a).getD i HTree.null = a := by
  simp [List.getD_eq_getElem?_getD, List.getElem?_set_self', h]

theorem getD_set_ne (l : List HTree) (i j : Nat) (a : HTree) (h : i ≠ j) :
    (l.set i a).getD j HTree.null = l.getD j HTree.null := by
  simp [List.getD_eq_getElem?_getD, List.getElem?_set_ne h]

theorem swap_getD_fst (l : List HTree) (i j : Nat) (hi : i < l.length) (hj : j < l.length) :
    (MinHeap.swap l i j).getD i HTree.null = l.getD j HTree.null := by
  unfold MinHeap.swap
  by_cases hij : i = j
  · subst hij
    rw [getD_set_self _ _ _ (by simpa using hi)]
  · rw [getD_set_ne _ _ _ _ (fun he => hij he.symm), getD_set_self _ _ _ hi]

theorem swap_getD_snd (l : List HTree) (i j : Nat) (hi : i < l.length) (hj : j < l.length) :
    (MinHeap.swap l i j).getD j HTree.null = l.getD i HTree.null := by
  unfold MinHeap.swap
  rw [getD_set_self _ _ _ (by simpa using hj)]

theorem swap_getD_other (l : List HTree) (i j k : Nat) (hki : k ≠ i) (hkj : k ≠ j) :
    (MinHeap.swap l i j).getD k HTree.null = l.getD k HTree.null := by
  unfold MinHeap.swap
  rw [getD_set_ne _ _ _ _ (fun he => hkj he.symm), getD_set_ne _ _ _ _ (fun he => hki he.symm)]

theorem getD_append_left (l₁ l₂ : List HTree) (k : Nat) (h : k < l₁.length) :
    (l₁ ++ l₂).getD k HTree.null = l₁.getD k HTree.null := by
  simp [List.getD_eq_getElem?_getD, List.getElem?_append_left h]

theorem getD_dropLast (l : List HTree) (j : Nat) (h : j < l.length - 1) :
    l.dropLast.getD j HTree.null = l.getD j HTree.null := by
  have h1 : j < l.dropLast.length := by simp; omega
  have h2 : j < l.length := by omega
  rw [List.getD_eq_getElem l _ h2, List.getD_eq_getElem _ _ h1, List.getElem_dropLast]

/-! ## The heap keeps its ordering, and extraction returns a minimum -/

theorem heapifyUp_isHeap : ∀ (i : Nat) (heap : List HTree),
    (∀ j, 0 < j → j < heap.length → j ≠ i →
      (heap.getD ((j - 1) / 2) HTree.null).freq ≤ (heap.getD j HTree.null).freq) →
    (∀ j, 0 < j → j < heap.length → (j - 1) / 2 = i → 0 < i →
      (heap.getD ((i - 1) / 2) HTree.null).freq ≤ (heap.getD j HTree.null).freq) →
    i < heap.length →
    IsHeap (MinHeap.heapifyUp heap i) := by
  intro i
  induction i using Nat.strong_induction_on with
  | _ i ih =>
    intro heap hA hB hilen
    unfold MinHeap.heapifyUp
    split
    · rename_i h0
      subst h0
      intro j hj hjlen
      exact hA j hj hjlen (by omega)
    · rename_i h0
      split
      · rename_i hswap
        set p := MinHeap.getParentIndex i with hpdef
        have hpi : p = (i - 1) / 2 := rfl
        have hp : p < i := by omega
        have hplen : p < heap.length := lt_trans hp hilen
        have hlen2 : (MinHeap.swap heap p i).length = heap.length := minHeapSwap_length _ _ _
        have hval : ∀ k, k < heap.length →
            (MinHeap.swap heap p i).getD k HTree.null
              = if k = p then heap.getD i HTree.null
                else if k = i then heap.getD p HTree.null
                else heap.getD k HTree.null := by
          intro k hk
          by_cases hkp : k = p
          · subst hkp
            rw [if_pos rfl, swap_getD_fst _ _ _ hplen hilen]
          · rw [if_neg hkp]
            by_cases hki : k = i
            · subst hki
              rw [if_pos rfl, swap_getD_snd _ _ _ hplen hilen]
            · rw [if_neg hki, swap_getD_other _ _ _ _ hkp hki]
        apply ih p hp
        · -- heap order holds away from p in the swapped array
          intro j hj hjlen hjp
          rw [hlen2] at hjlen
          have hpjlen : (j - 1) / 2 < heap.length := by omega
          rw [hval j hjlen, hval _ hpjlen]
          by_cases hji : j = i
          · subst hji
            rw [if_pos hpi.symm, if_neg (by omega : j ≠ p), if_pos rfl]
            omega
          · by_cases hpj_i : (j - 1) / 2 = i
            · have hij : i < j := by omega
              rw [if_neg (by omega : ¬ (j - 1) / 2 = p), if_pos hpj_i,
                if_neg (by omega : ¬ j = p), if_neg hji]
              have := hB j hj hjlen hpj_i (by omega)
              rw [← hpi] at this
              exact this
            · by_cases hpj_p : (j - 1) / 2 = p
              · rw [if_pos hpj_p, if_neg (by omega : ¬ j = p), if_neg hji]
                have h1 := hA j hj hjlen hji
                rw [hpj_p] at h1
                omega
              · rw [if_neg hpj_p, if_neg hpj_i, if_neg (by omega : ¬ j = p), if_neg hji]
                exact hA j hj hjlen hji
        · -- children of p dominate the grandparent in the swapped array
          intro j hj hjlen hpj hppos
          rw [hlen2] at hjlen
          have hgp : (p - 1) / 2 ≠ p := by omega
          have hgpi : (p - 1) / 2 ≠ i := by omega
          have hgplen : (p - 1) / 2 < heap.length := by omega
          rw [hval _ hgplen, if_neg hgp, if_neg hgpi, hval j hjlen]
          have h2 := hA p hppos hplen (by omega)
          by_cases hji : j = i
          · subst hji
            rw [if_neg (by omega : ¬ j = p), if_pos rfl]
            exact h2
          · have hjp2 : j ≠ p := by omega
            rw [if_neg hjp2, if_neg hji]
            have h1 := hA j hj hjlen hji
            rw [hpj] at h1
            omega
        · rw [hlen2]
          exact hplen
      · rename_i hnoswap
        intro j hj hjlen
        by_cases hji : j = i
        · subst hji
          simp only [MinHeap.getParentIndex] at hnoswap
          omega
        · exact hA j hj hjlen hji

theorem minHeapInsert_isHeap (heap : List HTree) (x : HTree) (hh : IsHeap heap) :
    IsHeap (MinHeap.insert heap x) := by
  unfold MinHeap.insert
  have hlen : ((heap ++ [x]).length - 1) = heap.length := by simp
  rw [hlen]
  apply heapifyUp_isHeap
  · intro j hj hjlen hjne
    simp only [List.length_append, List.length_singleton] at hjlen
    have hjlt : j < heap.length := by omega
    rw [getD_append_left _ _ _ hjlt, getD_append_left _ _ _ (by omega)]
    exact hh j hj hjlt
  · intro j hj hjlen hpj _
    simp only [List.length_append, List.length_singleton] at hjlen
    omega
  · simp

theorem isHeap_root_min (heap : List HTree) (hh : IsHeap heap) :
    ∀ j, j < heap.length →
      (heap.getD 0 HTree.null).freq ≤ (heap.getD j HTree.null).freq := by
  intro j
  induction j using Nat.strong_induction_on with
  | _ j ih =>
    intro hjlen
    rcases Nat.eq_zero_or_pos j with h0 | h0
    · subst h0; exact le_refl _
    · have h1 := hh j h0 hjlen
      have h2 := ih ((j - 1) / 2) (by omega) (by omega)
      omega

theorem extractMin_fst_getD (heap : List HTree) :
    (MinHeap.extractMin heap).1 = heap.getD 0 HTree.null := by
  unfold MinHeap.extractMin
  split
  · rename_i h0
    have : heap = [] := List.length_eq_zero.mp h0
    subst this
    rfl
  · split <;> rfl

theorem extractMin_min (heap : List HTree) (hh : IsHeap heap) :
    ∀ t ∈ heap, (MinHeap.extractMin heap).1.freq ≤ t.freq := by
  intro t ht
  obtain ⟨j, hj, hje⟩ := List.mem_iff_getElem.mp ht
  rw [extractMin_fst_getD]
  have := isHeap_root_min heap hh j hj
  rw [List.getD_eq_getElem heap _ hj, hje] at this
  exact this

theorem smallestIdx_cases (heap : List HTree) (i : Nat) :
    (MinHeap.smallestIdx heap i = i ∧
      (∀ c, (c = 2 * i + 1 ∨ c = 2 * i + 2) → c < heap.length →
        (heap.getD i HTree.null).freq ≤ (heap.getD c HTree.null).freq)) ∨
    (MinHeap.smallestIdx heap i ≠ i ∧
      (MinHeap.smallestIdx heap i = 2 * i + 1 ∨ MinHeap.smallestIdx heap i = 2 * i + 2) ∧
      MinHeap.smallestIdx heap i < heap.length ∧
      (heap.getD (MinHeap.smallestIdx heap i) HTree.null).freq
        < (heap.getD i HTree.null).freq ∧
      (∀ c, (c = 2 * i + 1 ∨ c = 2 * i + 2) → c < heap.length →
        (heap.getD (MinHeap.smallestIdx heap i) HTree.null).freq
          ≤ (heap.getD c HTree.null).freq)) := by
  simp only [MinHeap.smallestIdx]
  split_ifs with h1 h2 h2
  · -- left child smaller than node, right child smaller than left child
    right
    refine ⟨by omega, by omega, h2.1, by omega, ?_⟩
    intro c hc hclen
    rcases hc with hc | hc <;> subst hc <;> omega
  · -- left child smaller, right not smaller than left
    right
    refine ⟨by omega, by omega, h1.1, by omega, ?_⟩
    intro c hc hclen
    rcases hc with hc | hc <;> subst hc
    · omega
    · by_cases hr : 2 * i + 2 < heap.length
      · simp only [hr, true_and, not_lt] at h2
        omega
      · omega
  · -- left not smaller, right smaller than node
    right
    refine ⟨by omega, by omega, h2.1, by omega, ?_⟩
    intro c hc hclen
    rcases hc with hc | hc <;> subst hc
    · by_cases hl : 2 * i + 1 < heap.length
      · simp only [hl, true_and, not_lt] at h1
        omega
      · omega
    · omega
  · -- neither child smaller
    left
    refine ⟨rfl, ?_⟩
    intro c hc hclen
    rcases hc with hc | hc <;> subst hc
    · by_cases hl : 2 * i + 1 < heap.length
      · simp only [hl, true_and, not_lt] at h1
        omega
      · omega
    · by_cases hr : 2 * i + 2 < heap.length
      · simp only [hr, true_and, not_lt] at h2
        omega
      · omega

theorem heapifyDown_isHeap : ∀ (n : Nat) (heap : List HTree) (i : Nat),
    heap.length - i ≤ n →
    (∀ j, 0 < j → j < heap.length → (j - 1) / 2 ≠ i →
      (heap.getD ((j - 1) / 2) HTree.null).freq ≤ (heap.getD j HTree.null).freq) →
    (∀ j, 0 < j → j < heap.length → (j - 1) / 2 = i → 0 < i →
      (heap.getD ((i - 1) / 2) HTree.null).freq ≤ (heap.getD j HTree.null).freq) →
    IsHeap (MinHeap.heapifyDown heap i) := by
  intro n
  induction n with
  | zero =>
    intro heap i hfuel hA hB
    unfold MinHeap.heapifyDown
    split
    · rename_i hs
      rcases smallestIdx_cases heap i with ⟨h1, _⟩ | ⟨_, _, h3, _, _⟩
      · exact absurd h1 hs
      · rcases smallestIdx_spec heap i with h1 | h1
        · exact absurd h1 hs
        · omega
    · rename_i hs
      push_neg at hs
      rcases smallestIdx_cases heap i with ⟨_, h2⟩ | ⟨h1, _⟩
      · intro j hj hjlen
        by_cases hpj : (j - 1) / 2 = i
        · have := h2 j (by omega) hjlen
          rw [hpj]
          exact this
        · exact hA j hj hjlen hpj
      · exact absurd hs h1
  | succ n ih =>
    intro heap i hfuel hA hB
    unfold MinHeap.heapifyDown
    split
    · rename_i hs
      rcases smallestIdx_cases heap i with ⟨h1, _⟩ | ⟨_, hchild, hslen, hslt, hsmin⟩
      · exact absurd h1 hs
      · set s := MinHeap.smallestIdx heap i with hsdef
        have hsi : i < s := by omega
        have hilen : i < heap.length := lt_trans hsi hslen
        have hps : (s - 1) / 2 = i := by omega
        have hlen2 : (MinHeap.swap heap i s).length = heap.length := minHeapSwap_length _ _ _
        have hval : ∀ k, k < heap.length →
            (MinHeap.swap heap i s).getD k HTree.null
              = if k = i then heap.getD s HTree.null
                else if k = s then heap.getD i HTree.null
                else heap.getD k HTree.null := by
          intro k hk
          by_cases hki : k = i
          · subst hki
            rw [if_pos rfl, swap_getD_fst _ _ _ hilen hslen]
          · rw [if_neg hki]
            by_cases hks : k = s
            · subst hks
              rw [if_pos rfl, swap_getD_snd _ _ _ hilen hslen]
            · rw [if_neg hks, swap_getD_other _ _ _ _ hki hks]
        apply ih
        · rw [hlen2]
          omega
        · -- heap order away from s in the swapped array
          intro j hj hjlen hpjs
          rw [hlen2] at hjlen
          have hpjlen : (j - 1) / 2 < heap.length := by omega
          rw [hval j hjlen, hval _ hpjlen]
          by_cases hjs : j = s
          · rw [if_pos (by omega : (j - 1) / 2 = i), if_neg (by omega : ¬ j = i),
              if_pos hjs]
            omega
          · by_cases hpj_i : (j - 1) / 2 = i
            · have hjchild : j = 2 * i + 1 ∨ j = 2 * i + 2 := by omega
              rw [if_pos hpj_i, if_neg (by omega : ¬ j = i), if_neg hjs]
              exact hsmin j hjchild hjlen
            · by_cases hji : j = i
              · rw [if_neg (by omega : ¬ (j - 1) / 2 = i),
                  if_neg (by omega : ¬ (j - 1) / 2 = s), if_pos hji]
                have h2 := hB s (by omega) hslen hps (by omega)
                rw [show (j - 1) / 2 = (i - 1) / 2 from by omega]
                exact h2
              · rw [if_neg hpj_i, if_neg (by omega : ¬ (j - 1) / 2 = s), if_neg hji,
                  if_neg hjs]
                exact hA j hj hjlen hpj_i
        · -- children of s dominate the grandparent in the swapped array
          intro j hj hjlen hpj hspos
          rw [hlen2] at hjlen
          have hjs2 : s < j := by omega
          rw [hval j hjlen, hval _ (by omega : (s - 1) / 2 < heap.length)]
          rw [hps, if_pos rfl, if_neg (by omega : ¬ j = i), if_neg (by omega : ¬ j = s)]
          have h1 := hA j hj hjlen (by omega)
          rw [hpj] at h1
          exact h1
    · rename_i hs
      push_neg at hs
      rcases smallestIdx_cases heap i with ⟨_, h2⟩ | ⟨h1, _⟩
      · intro j hj hjlen
        by_cases hpj : (j - 1) / 2 = i
        · have := h2 j (by omega) hjlen
          rw [hpj]
          exact this
        · exact hA j hj hjlen hpj
      · exact absurd hs h1

theorem extractMin_isHeap (heap : List HTree) (hh : IsHeap heap) :
    IsHeap (MinHeap.extractMin heap).2 := by
  unfold MinHeap.extractMin
  split
  · exact hh
  · split
    · intro j hj hjlen
      simp at hjlen
      omega
    · rename_i h0 h1
      have hlen : 2 ≤ heap.length := by
        rcases Nat.eq_zero_or_pos heap.length with h | h
        · exact absurd h h0
        · omega
      apply heapifyDown_isHeap (heap.dropLast.set 0 (heap.getD (heap.length - 1) HTree.null)).length
      · omega
      · intro j hj hjlen hpj
        simp only [List.length_set, List.length_dropLast] at hjlen
        have hpjlen : (j - 1) / 2 < heap.length - 1 := by omega
        rw [getD_set_ne _ _ _ _ (by omega : (0 : Nat) ≠ j),
          getD_set_ne _ _ _ _ (by omega : (0 : Nat) ≠ (j - 1) / 2),
          getD_dropLast _ _ (by omega), getD_dropLast _ _ (by omega)]
        exact hh j hj (by omega)
      · intro j hj hjlen hpj hipos
        omega

/-! ## The merge loop always merges two minima -/

theorem mergeRun_perm {pool : List HTree} {T : HTree} (h : MergeRun pool T) :
    ∀ {pool' : List HTree}, pool ~ pool' → MergeRun pool' T := by
  induction h with
  | single t =>
    intro pool' hp
    have h1 : pool' = [t] := List.perm_singleton.mp hp.symm
    subst h1
    exact MergeRun.single t
  | step pool rest a b T hperm hamin hbmin hsub ih =>
    intro pool' hp
    exact MergeRun.step pool' rest a b T (hp.symm.trans hperm)
      (fun t ht => hamin t (hp.symm.subset ht)) hbmin hsub

theorem initialHeap_isHeap (freqs : List (Char × Nat)) : IsHeap (initialHeap freqs) := by
  have haux : ∀ (L : List (Char × Nat)) (acc : List HTree), IsHeap acc →
      IsHeap (L.foldl (fun hp p => MinHeap.insert hp (leafOf p)) acc) := by
    intro L
    induction L with
    | nil => intro acc h; exact h
    | cons p ps ih =>
      intro acc h
      exact ih _ (minHeapInsert_isHeap _ _ h)
  apply haux
  intro j hj hjlen
  simp at hjlen

theorem buildLoop_mergeRun (heap : List HTree) (hne : heap ≠ []) (hh : IsHeap heap) :
    ∃ t, buildLoop heap = [t] ∧ MergeRun heap t := by
  by_cases h : 1 < heap.length
  · have hne1 : (MinHeap.extractMin heap).2 ≠ [] := extractMin_snd_ne_nil heap h
    have hh1 : IsHeap (MinHeap.extractMin heap).2 := extractMin_isHeap heap hh
    have hh2 : IsHeap (MinHeap.extractMin (MinHeap.extractMin heap).2).2 :=
      extractMin_isHeap _ hh1
    have hnext : IsHeap (MinHeap.insert (MinHeap.extractMin (MinHeap.extractMin heap).2).2
        (createNode none
          ((MinHeap.extractMin heap).1.freq +
            (MinHeap.extractMin (MinHeap.extractMin heap).2).1.freq)
          (MinHeap.extractMin heap).1
          (MinHeap.extractMin (MinHeap.extractMin heap).2).1)) :=
      minHeapInsert_isHeap _ _ hh2
    have hnextne : MinHeap.insert (MinHeap.extractMin (MinHeap.extractMin heap).2).2
        (createNode none
          ((MinHeap.extractMin heap).1.freq +
            (MinHeap.extractMin (MinHeap.extractMin heap).2).1.freq)
          (MinHeap.extractMin heap).1
          (MinHeap.extractMin (MinHeap.extractMin heap).2).1) ≠ [] := by
      intro he
      have := minHeapInsert_length (MinHeap.extractMin (MinHeap.extractMin heap).2).2
        (createNode none
          ((MinHeap.extractMin heap).1.freq +
            (MinHeap.extractMin (MinHeap.extractMin heap).2).1.freq)
          (MinHeap.extractMin heap).1
          (MinHeap.extractMin (MinHeap.extractMin heap).2).1)
      rw [he] at this
      simp at this
    obtain ⟨t, hbl, hrun⟩ := buildLoop_mergeRun _ hnextne hnext
    refine ⟨t, ?_, ?_⟩
    · rw [buildLoop_eq heap h]
      exact hbl
    · have hp1 := extractMin_perm heap (heap_ne_nil_of_one_lt heap h)
      have hp2 := extractMin_perm (MinHeap.extractMin heap).2 hne1
      refine MergeRun.step heap (MinHeap.extractMin (MinHeap.extractMin heap).2).2
        (MinHeap.extractMin heap).1 (MinHeap.extractMin (MinHeap.extractMin heap).2).1 t
        ?_ ?_ ?_ ?_
      · exact (hp1.symm.trans ((hp2.symm.cons _))).symm.symm
      · exact extractMin_min heap hh
      · intro u hu
        exact extractMin_min _ hh1 u (hp2.subset (List.mem_cons_of_mem _ hu))
      · exact mergeRun_perm hrun (minHeapInsert_perm _ _)
  · have h1 : heap.length = 1 := by
      have := List.length_pos.mpr hne
      omega
    obtain ⟨t, ht⟩ := List.length_eq_one.mp h1
    subst ht
    rw [buildLoop_eq_self _ (by simp)]
    exact ⟨t, rfl, MergeRun.single t⟩
termination_by heap.length
decreasing_by
  rw [buildLoop_next_length heap h]
  have := List.length_pos.mpr hne
  omega

theorem mergeRun_fullW {pool : List HTree} {T : HTree} (h : MergeRun pool T)
    (hf : ∀ t ∈ pool, FullW t) : FullW T := by
  induction h with
  | single t => exact hf t (List.mem_cons_self _ _)
  | step pool rest a b T hperm hamin hbmin hsub ih =>
    apply ih
    intro t ht
    rcases List.mem_cons.mp ht with ht | ht
    · subst ht
      exact FullW.internal _ (hf a (hperm.symm.subset (List.mem_cons_self _ _)))
        (hf b (hperm.symm.subset (List.mem_cons_of_mem _ (List.mem_cons_self _ _)))) rfl
    · exact hf t (hperm.symm.subset
        (List.mem_cons_of_mem _ (List.mem_cons_of_mem _ ht)))

theorem mergeRun_leafBound (w : Nat) {pool : List HTree} {T : HTree} (h : MergeRun pool T)
    (hf : ∀ t ∈ pool, LeafBound w t) : LeafBound w T := by
  induction h with
  | single t => exact hf t (List.mem_cons_self _ _)
  | step pool rest a b T hperm hamin hbmin hsub ih =>
    apply ih
    intro t ht
    rcases List.mem_cons.mp ht with ht | ht
    · subst ht
      exact ⟨hf a (hperm.symm.subset (List.mem_cons_self _ _)),
        hf b (hperm.symm.subset (List.mem_cons_of_mem _ (List.mem_cons_self _ _)))⟩
    · exact hf t (hperm.symm.subset
        (List.mem_cons_of_mem _ (List.mem_cons_of_mem _ ht)))

theorem poolLeaves_perm {p₁ p₂ : List HTree} (h : p₁ ~ p₂) : poolLeaves p₁ ~ poolLeaves p₂ :=
  perm_flatten (h.map HTree.leaves)

theorem poolLeaves_cons (t : HTree) (p : List HTree) :
    poolLeaves (t :: p) = t.leaves ++ poolLeaves p := by
  simp [poolLeaves]

theorem mergeRun_leaves {pool : List HTree} {T : HTree} (h : MergeRun pool T) :
    HTree.leaves T ~ poolLeaves pool := by
  induction h with
  | single t => simp [poolLeaves]
  | step pool rest a b T hperm hamin hbmin hsub ih =>
    refine ih.trans ?_
    rw [poolLeaves_cons]
    have hm : (HTree.node none (a.freq + b.freq) a b).leaves
        = a.leaves ++ b.leaves := rfl
    rw [hm, List.append_assoc]
    refine List.Perm.trans ?_ (poolLeaves_perm hperm.symm)
    rw [poolLeaves_cons, poolLeaves_cons]

/-! ## Paths, subtree replacement and their bookkeeping -/

theorem nodeAt_append (t : HTree) (p q : List Bool) :
    nodeAt t (p ++ q) = (nodeAt t p).bind (fun u => nodeAt u q) := by
  induction p generalizing t with
  | nil => simp [nodeAt]
  | cons d p ih =>
    cases t with
    | null => simp [nodeAt]
    | node c f l r =>
      rw [List.cons_append]
      show nodeAt (if d then r else l) (p ++ q) = _
      rw [ih]
      rfl

theorem replaceAt_nodeAt_self (T : HTree) (q : List Bool) (s s' : HTree)
    (h : nodeAt T q = some s) : nodeAt (replaceAt T q s') q = some s' := by
  induction q generalizing T with
  | nil => simp [nodeAt, replaceAt]
  | cons d q ih =>
    cases T with
    | null => simp [nodeAt] at h
    | node c f l r =>
      cases d with
      | false =>
        show nodeAt (replaceAt l q s') q = some s'
        exact ih l h
      | true =>
        show nodeAt (replaceAt r q s') q = some s'
        exact ih r h

theorem replaceAt_nodeAt_under (T : HTree) (q : List Bool) (s s' : HTree)
    (h : nodeAt T q = some s) (p : List Bool) :
    nodeAt (replaceAt T q s') (q ++ p) = nodeAt s' p := by
  rw [nodeAt_append, replaceAt_nodeAt_self T q s s' h]
  rfl

theorem replaceAt_append (T : HTree) (q0 : List Bool) (u : HTree)
    (hn : nodeAt T q0 = some u) (p : List Bool) (s' : HTree) :
    replaceAt T (q0 ++ p) s' = replaceAt T q0 (replaceAt u p s') := by
  induction q0 generalizing T with
  | nil =>
    have hu : T = u := by
      simpa [nodeAt] using hn
    subst hu
    simp [replaceAt]
  | cons d q ih =>
    cases T with
    | null => simp [nodeAt] at hn
    | node c f l r =>
      cases d with
      | false =>
        simp only [nodeAt] at hn
        simp only [Bool.false_eq_true, if_false] at hn
        simp only [List.cons_append, replaceAt, Bool.false_eq_true, if_false, List.append_eq]
        rw [ih l hn]
      | true =>
        simp only [nodeAt] at hn
        simp only [if_true] at hn
        simp only [List.cons_append, replaceAt, if_true, List.append_eq]
        rw [ih r hn]

theorem HTree.freq_node (c : Option Char) (f : Nat) (l r : HTree) :
    (HTree.node c f l r).freq = f := rfl

theorem HTree.freq_null : HTree.freq HTree.null = 0 := rfl

theorem replaceAt_offPath (T : HTree) (q : List Bool) (s s' : HTree)
    (hn : nodeAt T q = some s) (hf : s'.freq = s.freq) :
    ∀ p, ¬(q <+: p) →
      (nodeAt (replaceAt T q s') p = none ∧ nodeAt T p = none) ∨
      (∃ u u', nodeAt T p = some u ∧ nodeAt (replaceAt T q s') p = some u' ∧
        u'.freq = u.freq ∧ (u' = HTree.null ↔ u = HTree.null)) := by
  induction q generalizing T with
  | nil => intro p hp; exact absurd List.nil_prefix hp
  | cons d q ih =>
    intro p hp
    cases T with
    | null => simp [nodeAt] at hn
    | node c f l r =>
      cases p with
      | nil =>
        right
        cases d with
        | false =>
          exact ⟨HTree.node c f l r, HTree.node c f (replaceAt l q s') r, rfl,
            by simp [replaceAt, nodeAt], rfl, by simp⟩
        | true =>
          exact ⟨HTree.node c f l r, HTree.node c f l (replaceAt r q s'), rfl,
            by simp [replaceAt, nodeAt], rfl, by simp⟩
      | cons e p' =>
        cases d with
        | false =>
          simp only [nodeAt, Bool.false_eq_true, if_false] at hn
          cases e with
          | false =>
            have hp' : ¬ (q <+: p') := by
              intro hcon
              exact hp (by simp [List.cons_prefix_cons, hcon])
            have := ih l hn p' hp'
            simpa [nodeAt, replaceAt] using this
          | true =>
            simp only [replaceAt, Bool.false_eq_true, if_false]
            show _ ∨ _
            cases hr : nodeAt r p' with
            | none =>
              left
              constructor
              · show nodeAt (if true then r else l) p' = none
                simpa using hr
              · show nodeAt (if true then r else l) p' = none
                simpa using hr
            | some u =>
              right
              refine ⟨u, u, ?_, ?_, rfl, Iff.rfl⟩
              · show nodeAt (if true then r else l) p' = some u
                simpa using hr
              · show nodeAt (if true then r else l) p' = some u
                simpa using hr
        | true =>
          simp only [nodeAt, if_true] at hn
          cases e with
          | true =>
            have hp' : ¬ (q <+: p') := by
              intro hcon
              exact hp (by simp [List.cons_prefix_cons, hcon])
            have := ih r hn p' hp'
            simpa [nodeAt, replaceAt] using this
          | false =>
            simp only [replaceAt, if_true]
            cases hl : nodeAt l p' with
            | none =>
              left
              constructor
              · show nodeAt (if false then r else l) p' = none
                simpa using hl
              · show nodeAt (if false then r else l) p' = none
                simpa using hl
            | some u =>
              right
              refine ⟨u, u, ?_, ?_, rfl, Iff.rfl⟩
              · show nodeAt (if false then r else l) p' = some u
                simpa using hl
              · show nodeAt (if false then r else l) p' = some u
                simpa using hl

theorem fullW_ne_null {t : HTree} (h : FullW t) : t ≠ HTree.null := by
  cases h <;> intro hc <;> cases hc

theorem fullW_nodeAt :
    ∀ (p : List Bool) (T : HTree), FullW T →
      ∀ (u : HTree), nodeAt T p = some u → u ≠ HTree.null → FullW u := by
  intro p
  induction p with
  | nil =>
    intro T hT u hn _
    have : T = u := by simpa [nodeAt] using hn
    exact this ▸ hT
  | cons d p ih =>
    intro T hT u hn hnn
    cases hT with
    | leaf c f =>
      simp only [nodeAt] at hn
      have h0 : nodeAt HTree.null p = some u := by
        cases d <;> simpa using hn
      cases p with
      | nil =>
        have : u = HTree.null := by simpa [nodeAt] using h0.symm
        exact absurd this hnn
      | cons e p' => simp [nodeAt] at h0
    | internal f hl hr hsum =>
      rename_i l r
      simp only [nodeAt] at hn
      cases d with
      | false => exact ih l hl u (by simpa using hn) hnn
      | true => exact ih r hr u (by simpa using hn) hnn

theorem fullW_freq_le :
    ∀ (p : List Bool) (T : HTree), FullW T →
      ∀ (u : HTree), nodeAt T p = some u → u.freq ≤ T.freq := by
  intro p
  induction p with
  | nil =>
    intro T hT u hn
    have : T = u := by simpa [nodeAt] using hn
    exact this ▸ le_refl _
  | cons d p ih =>
    intro T hT u hn
    cases hT with
    | leaf c f =>
      simp only [nodeAt] at hn
      have h0 : nodeAt HTree.null p = some u := by
        cases d <;> simpa using hn
      cases p with
      | nil =>
        have : u = HTree.null := by simpa [nodeAt] using h0.symm
        subst this
        simp [HTree.freq]
      | cons e p' => simp [nodeAt] at h0
    | internal f hl hr hsum =>
      rename_i l r
      simp only [nodeAt] at hn
      cases d with
      | false =>
        have h1 := ih l hl u (by simpa using hn)
        have h2 : (HTree.node none f l r).freq = f := rfl
        rw [h2]
        omega
      | true =>
        have h1 := ih r hr u (by simpa using hn)
        have h2 : (HTree.node none f l r).freq = f := rfl
        rw [h2]
        omega

theorem leafBound_nodeAt {w : Nat} :
    ∀ (p : List Bool) (T : HTree), FullW T → LeafBound w T →
      ∀ (u : HTree), nodeAt T p = some u → LeafBound w u := by
  intro p
  induction p with
  | nil =>
    intro T hT hb u hn
    have : T = u := by simpa [nodeAt] using hn
    exact this ▸ hb
  | cons d p ih =>
    intro T hT hb u hn
    cases hT with
    | leaf c f =>
      simp only [nodeAt] at hn
      have h0 : nodeAt HTree.null p = some u := by
        cases d <;> simpa using hn
      cases p with
      | nil =>
        have : u = HTree.null := by simpa [nodeAt] using h0.symm
        subst this
        trivial
      | cons e p' => simp [nodeAt] at h0
    | internal f hl hr hsum =>
      rename_i l r
      have hb2 : LeafBound w l ∧ LeafBound w r := hb
      simp only [nodeAt] at hn
      cases d with
      | false => exact ih l hl hb2.1 u (by simpa using hn)
      | true => exact ih r hr hb2.2 u (by simpa using hn)

theorem fullW_leafBound_le {w : Nat} {t : HTree} (hT : FullW t) (hb : LeafBound w t) :
    w ≤ t.freq := by
  induction hT with
  | leaf c f => exact hb
  | internal f hl hr hsum ihl ihr =>
    have hb2 : LeafBound w _ ∧ LeafBound w _ := hb
    have := ihl hb2.1
    simp only [HTree.freq]
    omega

theorem nodeAt_leaf_cases (c : Char) (f : Nat) (p : List Bool) (u : HTree)
    (hn : nodeAt (HTree.node (some c) f HTree.null HTree.null) p = some u)
    (hnn : u ≠ HTree.null) : p = [] ∧ u = HTree.node (some c) f HTree.null HTree.null := by
  cases p with
  | nil =>
    have : HTree.node (some c) f HTree.null HTree.null = u := by simpa [nodeAt] using hn
    exact ⟨rfl, this.symm⟩
  | cons d p' =>
    simp only [nodeAt] at hn
    have h0 : nodeAt HTree.null p' = some u := by
      cases d <;> simpa using hn
    cases p' with
    | nil =>
      have : u = HTree.null := by simpa [nodeAt] using h0.symm
      exact absurd this hnn
    | cons e p'' => simp [nodeAt] at h0

theorem nodeAt_prefix_isSome (T : HTree) (p pre : List Bool) (u : HTree)
    (hn : nodeAt T p = some u) (hpre : pre <+: p) : ∃ v, nodeAt T pre = some v := by
  obtain ⟨rest, hrest⟩ := hpre
  subst hrest
  rw [nodeAt_append] at hn
  cases hv : nodeAt T pre with
  | none => rw [hv] at hn; simp at hn
  | some v => exact ⟨v, rfl⟩

theorem mem_perm_cons {α : Type} {a : α} {l : List α} (h : a ∈ l) :
    ∃ l', l ~ a :: l' := by
  induction l with
  | nil => cases h
  | cons x xs ih =>
    rcases List.mem_cons.mp h with h | h
    · subst h
      exact ⟨xs, List.Perm.refl _⟩
    · obtain ⟨l', hl'⟩ := ih h
      exact ⟨x :: l', (hl'.cons x).trans (List.Perm.swap a x l')⟩

theorem mergeRun_graft {pool : List HTree} {T : HTree} (h : MergeRun pool T) :
    ∀ (s : HTree) (rest : List HTree), pool ~ s :: rest →
      ∃ q, nodeAt T q = some s ∧
        ∀ (s' : HTree), s'.freq = s.freq → MergeRun (s' :: rest) (replaceAt T q s') := by
  induction h with
  | single t =>
    intro s rest hp
    have h1 : s :: rest = [t] := List.perm_singleton.mp hp.symm
    obtain ⟨hs, hr⟩ := List.cons_eq_cons.mp h1
    subst hs; subst hr
    refine ⟨[], by simp [nodeAt], ?_⟩
    intro s' _
    have hr0 : replaceAt s [] s' = s' := by simp [replaceAt]
    rw [hr0]
    exact MergeRun.single s'
  | step pool rest2 a b T hperm hamin hbmin hsub ih =>
    intro s rest hps
    have hss : s :: rest ~ a :: b :: rest2 := hps.symm.trans hperm
    have hsmem : s ∈ a :: b :: rest2 := hss.subset (List.mem_cons_self _ _)
    obtain ⟨q0, hq0, hg0⟩ :=
      ih (HTree.node none (a.freq + b.freq) a b) rest2 (List.Perm.refl _)
    rcases List.mem_cons.mp hsmem with hsa | hsmem2
    · subst hsa
      have hrest : rest ~ b :: rest2 := hss.cons_inv
      refine ⟨q0 ++ [false], ?_, ?_⟩
      · rw [nodeAt_append, hq0]
        rfl
      · intro s' hf
        have hrepl : replaceAt T (q0 ++ [false]) s'
            = replaceAt T q0 (HTree.node none (s.freq + b.freq) s' b) := by
          rw [replaceAt_append T q0 _ hq0]
          simp [replaceAt]
        rw [hrepl]
        have hrun0 : MergeRun (HTree.node none (s.freq + b.freq) s' b :: rest2)
            (replaceAt T q0 (HTree.node none (s.freq + b.freq) s' b)) :=
          hg0 _ rfl
        apply MergeRun.step (s' :: rest) rest2 s' b
        · exact hrest.cons s'
        · intro t ht
          rcases List.mem_cons.mp ht with ht | ht
          · subst ht
            exact le_refl _
          · rw [hf]
            exact hamin t (hps.symm.subset (List.mem_cons_of_mem _ ht))
        · exact hbmin
        · rw [hf]
          exact hrun0
    rcases List.mem_cons.mp hsmem2 with hsb | hsr2
    · subst hsb
      have hrest : rest ~ a :: rest2 := (hss.trans (List.Perm.swap s a rest2)).cons_inv
      refine ⟨q0 ++ [true], ?_, ?_⟩
      · rw [nodeAt_append, hq0]
        rfl
      · intro s' hf
        have hrepl : replaceAt T (q0 ++ [true]) s'
            = replaceAt T q0 (HTree.node none (a.freq + s.freq) a s') := by
          rw [replaceAt_append T q0 _ hq0]
          simp [replaceAt]
        rw [hrepl]
        have hrun0 : MergeRun (HTree.node none (a.freq + s.freq) a s' :: rest2)
            (replaceAt T q0 (HTree.node none (a.freq + s.freq) a s')) :=
          hg0 _ rfl
        apply MergeRun.step (s' :: rest) rest2 a s'
        · exact (hrest.cons s').trans (List.Perm.swap a s' rest2)
        · intro t ht
          rcases List.mem_cons.mp ht with ht | ht
          · rw [ht, hf]
            exact hamin s (hperm.symm.subset (List.mem_cons_of_mem _ (List.mem_cons_self _ _)))
          · exact hamin t (hps.symm.subset (List.mem_cons_of_mem _ ht))
        · intro t ht
          rw [hf]
          exact hbmin t ht
        · rw [hf]
          exact hrun0
    · obtain ⟨r2', hr2⟩ := mem_perm_cons hsr2
      have hrest : rest ~ a :: b :: r2' := by
        have h1 : s :: rest ~ a :: b :: s :: r2' := hss.trans ((hr2.cons b).cons a)
        have h2 : a :: b :: s :: r2' ~ s :: a :: b :: r2' :=
          ((List.Perm.swap s b r2').cons a).trans (List.Perm.swap s a (b :: r2'))
        exact (h1.trans h2).cons_inv
      have hpm : (HTree.node none (a.freq + b.freq) a b :: rest2)
          ~ s :: HTree.node none (a.freq + b.freq) a b :: r2' :=
        (hr2.cons _).trans (List.Perm.swap s _ r2')
      obtain ⟨q, hq, hg⟩ := ih s _ hpm
      refine ⟨q, hq, ?_⟩
      intro s' hf
      have hrun' : MergeRun (s' :: HTree.node none (a.freq + b.freq) a b :: r2')
          (replaceAt T q s') := hg s' hf
      have hrun'' : MergeRun (HTree.node none (a.freq + b.freq) a b :: s' :: r2')
          (replaceAt T q s') := mergeRun_perm hrun' (List.Perm.swap _ _ _)
      apply MergeRun.step (s' :: rest) (s' :: r2') a b
      · refine (hrest.cons s').trans ?_
        exact (List.Perm.swap a s' (b :: r2')).trans ((List.Perm.swap b s' r2').cons a)
      · intro t ht
        rcases List.mem_cons.mp ht with ht | ht
        · rw [ht, hf]
          exact hamin s (hperm.symm.subset hsmem)
        · exact hamin t (hps.symm.subset (List.mem_cons_of_mem _ ht))
      · intro t ht
        rcases List.mem_cons.mp ht with ht | ht
        · rw [ht, hf]
          exact hbmin s hsr2
        · exact hbmin t (hr2.symm.subset (List.mem_cons_of_mem _ ht))
      · exact hrun''

theorem nodeAt_merge_cases (ca : Char) (fa : Nat) (cb : Char) (fb : Nat) (F : Nat)
    (p : List Bool) (u : HTree)
    (hn : nodeAt (HTree.node none F (HTree.node (some ca) fa HTree.null HTree.null)
      (HTree.node (some cb) fb HTree.null HTree.null)) p = some u)
    (hnn : u ≠ HTree.null) :
    (p = [] ∧ u = HTree.node none F (HTree.node (some ca) fa HTree.null HTree.null)
      (HTree.node (some cb) fb HTree.null HTree.null)) ∨
    (p = [false] ∧ u = HTree.node (some ca) fa HTree.null HTree.null) ∨
    (p = [true] ∧ u = HTree.node (some cb) fb HTree.null HTree.null) := by
  cases p with
  | nil =>
    left
    refine ⟨rfl, ?_⟩
    have h0 := hn
    simp [nodeAt] at h0
    exact h0.symm
  | cons d p' =>
    cases d with
    | false =>
      have h1 : nodeAt (HTree.node (some ca) fa HTree.null HTree.null) p' = some u := by
        simpa [nodeAt] using hn
      obtain ⟨hp', hu⟩ := nodeAt_leaf_cases ca fa p' u h1 hnn
      subst hp'
      right; left; exact ⟨rfl, hu⟩
    | true =>
      have h1 : nodeAt (HTree.node (some cb) fb HTree.null HTree.null) p' = some u := by
        simpa [nodeAt] using hn
      obtain ⟨hp', hu⟩ := nodeAt_leaf_cases cb fb p' u h1 hnn
      subst hp'
      right; right; exact ⟨rfl, hu⟩

theorem graft_ancestor_bound
    (T0 : HTree) (q : List Bool) (ca : Char) (fa fb : Nat)
    (hFull0 : FullW T0) (hLB0 : LeafBound fb T0)
    (hq0 : nodeAt T0 q = some (HTree.node (some ca) (fa + fb) HTree.null HTree.null))
    (hmono : ∀ (q₁ : List Bool) (u₁ : HTree) (q₂ : List Bool) (u₂ : HTree),
      nodeAt T0 q₁ = some u₁ → nodeAt T0 q₂ = some u₂ →
      u₂ ≠ HTree.null → u₂.freq < u₁.freq → q₁.length ≤ q₂.length)
    (q₁ : List Bool) (u₁' : HTree) (hT0u : nodeAt T0 q₁ = some u₁')
    (hgt : fa < u₁'.freq) :
    q₁.length ≤ q.length + 1 := by
  by_contra hcon
  push_neg at hcon
  have hq'pre : q₁.take (q.length + 1) <+: q₁ := List.take_prefix _ _
  have hq'len : (q₁.take (q.length + 1)).length = q.length + 1 := by
    rw [List.length_take]
    omega
  obtain ⟨v0, hv0⟩ := nodeAt_prefix_isSome T0 q₁ (q₁.take (q.length + 1)) u₁' hT0u hq'pre
  have hsplit : q₁.take (q.length + 1) ++ q₁.drop (q.length + 1) = q₁ :=
    List.take_append_drop _ _
  have hdrop : nodeAt v0 (q₁.drop (q.length + 1)) = some u₁' := by
    have h := hT0u
    rw [← hsplit, nodeAt_append, hv0] at h
    exact h
  have hL : (q₁.drop (q.length + 1)).length = q₁.length - (q.length + 1) :=
    List.length_drop _ _
  have hdne : q₁.drop (q.length + 1) ≠ [] := by
    intro hx
    rw [hx] at hL
    simp at hL
    omega
  have hv0Full : FullW v0 := by
    apply fullW_nodeAt _ T0 hFull0 v0 hv0
    intro hx
    cases hdq : q₁.drop (q.length + 1) with
    | nil => exact hdne hdq
    | cons e rest' =>
      rw [hx, hdq] at hdrop
      simp [nodeAt] at hdrop
  have hv0LB : LeafBound fb v0 := leafBound_nodeAt _ T0 hFull0 hLB0 v0 hv0
  cases hv0Full with
  | leaf c f =>
    have hnn₁x : u₁' ≠ HTree.null := by
      intro hx
      rw [hx] at hgt
      simp only [HTree.freq] at hgt
      omega
    obtain ⟨hp0, _⟩ := nodeAt_leaf_cases c f _ u₁' hdrop hnn₁x
    exact hdne hp0
  | internal f hlv hrv hsum =>
    rename_i lv rv
    have hLBp : LeafBound fb lv ∧ LeafBound fb rv := hv0LB
    cases hdq : q₁.drop (q.length + 1) with
    | nil => exact hdne hdq
    | cons e rest' =>
      rw [hdq] at hdrop
      have hchild : nodeAt (if e then rv else lv) rest' = some u₁' := by
        simpa [nodeAt] using hdrop
      have hvle : f ≤ fa + fb := by
        by_contra hc
        push_neg at hc
        have hfr : (HTree.node (some ca) (fa + fb) HTree.null HTree.null).freq
            < (HTree.node none f lv rv).freq := by
          simp only [HTree.freq]
          omega
        have h := hmono (q₁.take (q.length + 1)) _ q _ hv0 hq0 (by intro hx; cases hx) hfr
        omega
      cases e with
      | false =>
        have h1 : u₁'.freq ≤ lv.freq := fullW_freq_le rest' lv hlv u₁' (by simpa using hchild)
        have h2 : fb ≤ rv.freq := fullW_leafBound_le hrv hLBp.2
        omega
      | true =>
        have h1 : u₁'.freq ≤ rv.freq := fullW_freq_le rest' rv hrv u₁' (by simpa using hchild)
        have h2 : fb ≤ lv.freq := fullW_leafBound_le hlv hLBp.1
        omega

theorem mergeRun_depth_mono :
    ∀ (n : Nat) (pool : List HTree) (T : HTree), pool.length = n →
      MergeRun pool T → (∀ t ∈ pool, IsLeafNode t) →
      ∀ (q₁ : List Bool) (u₁ : HTree) (q₂ : List Bool) (u₂ : HTree),
        nodeAt T q₁ = some u₁ → nodeAt T q₂ = some u₂ →
        u₂ ≠ HTree.null → u₂.freq < u₁.freq → q₁.length ≤ q₂.length := by
  intro n
  induction n using Nat.strong_induction_on with
  | _ n ih =>
  intro pool T hlen hrun hleaf q₁ u₁ q₂ u₂ hn₁ hn₂ hnn₂ hlt
  have hnn₁ : u₁ ≠ HTree.null := by
    intro hc
    rw [hc] at hlt
    simp only [HTree.freq_null] at hlt
    omega
  cases hrun with
  | single t =>
    obtain ⟨c, f, ht⟩ := hleaf T (List.mem_cons_self _ _)
    subst ht
    obtain ⟨hq1, _⟩ := nodeAt_leaf_cases c f q₁ u₁ hn₁ hnn₁
    subst hq1
    simp
  | step pool2 rest2 a b T hperm hamin hbmin hsub =>
    obtain ⟨ca, fa, hae⟩ := hleaf a (hperm.symm.subset (List.mem_cons_self _ _))
    obtain ⟨cb, fb, hbe⟩ := hleaf b
      (hperm.symm.subset (List.mem_cons_of_mem _ (List.mem_cons_self _ _)))
    subst hae
    subst hbe
    simp only [HTree.freq_node] at hamin hbmin hsub
    have hab : fa ≤ fb := by
      have h := hamin (HTree.node (some cb) fb HTree.null HTree.null)
        (hperm.symm.subset (List.mem_cons_of_mem _ (List.mem_cons_self _ _)))
      simpa [HTree.freq_node] using h
    obtain ⟨q, hq, hgraft⟩ := mergeRun_graft hsub
      (HTree.node none (fa + fb) (HTree.node (some ca) fa HTree.null HTree.null)
        (HTree.node (some cb) fb HTree.null HTree.null)) rest2 (List.Perm.refl _)
    have hT0run := hgraft (HTree.node (some ca) (fa + fb) HTree.null HTree.null) rfl
    have hleaf0 : ∀ t ∈ HTree.node (some ca) (fa + fb) HTree.null HTree.null :: rest2,
        IsLeafNode t := by
      intro t ht
      rcases List.mem_cons.mp ht with ht | ht
      · exact ⟨ca, fa + fb, ht⟩
      · exact hleaf t (hperm.symm.subset
          (List.mem_cons_of_mem _ (List.mem_cons_of_mem _ ht)))
    have hlenlt : (HTree.node (some ca) (fa + fb) HTree.null HTree.null :: rest2).length < n := by
      have h := hperm.length_eq
      simp only [List.length_cons] at h ⊢
      omega
    have IH0 := ih _ hlenlt _ _ rfl hT0run hleaf0
    have hLF : ∀ t : HTree, IsLeafNode t → FullW t := by
      rintro t ⟨c, f, rfl⟩
      exact FullW.leaf c f
    have hFull0 : FullW (replaceAt T q (HTree.node (some ca) (fa + fb) HTree.null HTree.null)) :=
      mergeRun_fullW hT0run (fun t ht => hLF t (hleaf0 t ht))
    have hLB0 : LeafBound fb
        (replaceAt T q (HTree.node (some ca) (fa + fb) HTree.null HTree.null)) := by
      apply mergeRun_leafBound fb hT0run
      intro t ht
      rcases List.mem_cons.mp ht with ht | ht
      · rw [ht]
        show LeafBound fb (HTree.node (some ca) (fa + fb) HTree.null HTree.null)
        simp only [LeafBound]
        omega
      · have hl0 := hleaf0 t (List.mem_cons_of_mem _ ht)
        obtain ⟨c, f, rfl⟩ := hl0
        have h := hbmin _ ht
        simp only [HTree.freq_node] at h
        simpa [LeafBound] using h
    have hall0 : ∀ (p : List Bool) (u : HTree),
        nodeAt (replaceAt T q (HTree.node (some ca) (fa + fb) HTree.null HTree.null)) p
          = some u → u ≠ HTree.null → fb ≤ u.freq := by
      intro p u hnu hnnu
      exact fullW_leafBound_le (fullW_nodeAt p _ hFull0 u hnu hnnu)
        (leafBound_nodeAt p _ hFull0 hLB0 u hnu)
    have hq0 : nodeAt (replaceAt T q (HTree.node (some ca) (fa + fb) HTree.null HTree.null)) q
        = some (HTree.node (some ca) (fa + fb) HTree.null HTree.null) :=
      replaceAt_nodeAt_self T q _ _ hq
    have hoff := replaceAt_offPath T q _
      (HTree.node (some ca) (fa + fb) HTree.null HTree.null) hq rfl
    have hunder : ∀ p, nodeAt T (q ++ p)
        = nodeAt (HTree.node none (fa + fb) (HTree.node (some ca) fa HTree.null HTree.null)
            (HTree.node (some cb) fb HTree.null HTree.null)) p := by
      intro p
      rw [nodeAt_append, hq]
      rfl
    have hlnn : (HTree.node (some ca) (fa + fb) HTree.null HTree.null) ≠ HTree.null := by
      intro hx; cases hx
    by_cases hq1 : q <+: q₁
    · by_cases hq2 : q <+: q₂
      · obtain ⟨p₁, rfl⟩ := hq1
        obtain ⟨p₂, rfl⟩ := hq2
        have hm1 : nodeAt (HTree.node none (fa + fb)
            (HTree.node (some ca) fa HTree.null HTree.null)
            (HTree.node (some cb) fb HTree.null HTree.null)) p₁ = some u₁ := by
          rw [← hunder p₁]; exact hn₁
        have hm2 : nodeAt (HTree.node none (fa + fb)
            (HTree.node (some ca) fa HTree.null HTree.null)
            (HTree.node (some cb) fb HTree.null HTree.null)) p₂ = some u₂ := by
          rw [← hunder p₂]; exact hn₂
        rcases nodeAt_merge_cases ca fa cb fb (fa + fb) p₁ u₁ hm1 hnn₁ with
          ⟨hp1, hu1⟩ | ⟨hp1, hu1⟩ | ⟨hp1, hu1⟩
        · subst hp1
          simp only [List.append_nil, List.length_append]
          omega
        · rw [hu1] at hlt
          simp only [HTree.freq_node] at hlt
          rcases nodeAt_merge_cases ca fa cb fb (fa + fb) p₂ u₂ hm2 hnn₂ with
            ⟨hp2, hu2⟩ | ⟨hp2, hu2⟩ | ⟨hp2, hu2⟩
          · rw [hu2] at hlt
            simp only [HTree.freq_node] at hlt
            omega
          · rw [hu2] at hlt
            simp only [HTree.freq_node] at hlt
            omega
          · rw [hu2] at hlt
            simp only [HTree.freq_node] at hlt
            omega
        · rw [hu1] at hlt
          simp only [HTree.freq_node] at hlt
          rcases nodeAt_merge_cases ca fa cb fb (fa + fb) p₂ u₂ hm2 hnn₂ with
            ⟨hp2, hu2⟩ | ⟨hp2, hu2⟩ | ⟨hp2, hu2⟩
          · rw [hu2] at hlt
            simp only [HTree.freq_node] at hlt
            omega
          · subst hp1
            subst hp2
            simp only [List.length_append, List.length_cons, List.length_nil]
            omega
          · rw [hu2] at hlt
            simp only [HTree.freq_node] at hlt
            omega
      · obtain ⟨p₁, rfl⟩ := hq1
        have hm1 : nodeAt (HTree.node none (fa + fb)
            (HTree.node (some ca) fa HTree.null HTree.null)
            (HTree.node (some cb) fb HTree.null HTree.null)) p₁ = some u₁ := by
          rw [← hunder p₁]; exact hn₁
        rcases hoff q₂ hq2 with ⟨h1, h2⟩ | ⟨u, u₂', hTu, hT0u, hfr2, hnul2⟩
        · rw [hn₂] at h2
          exact Option.noConfusion h2
        · have hu2eq : u = u₂ := by
            rw [hn₂] at hTu
            exact (Option.some.inj hTu).symm
          subst hu2eq
          have hnn₂' : u₂' ≠ HTree.null := fun hx => hnn₂ (hnul2.mp hx)
          rcases nodeAt_merge_cases ca fa cb fb (fa + fb) p₁ u₁ hm1 hnn₁ with
            ⟨hp1, hu1⟩ | ⟨hp1, hu1⟩ | ⟨hp1, hu1⟩
          · subst hp1
            have hfr : u₂'.freq
                < (HTree.node (some ca) (fa + fb) HTree.null HTree.null).freq := by
              rw [hu1] at hlt
              simp only [HTree.freq_node] at hlt ⊢
              omega
            have h := IH0 q _ q₂ u₂' hq0 hT0u hnn₂' hfr
            simpa using h
          · rw [hu1] at hlt
            simp only [HTree.freq_node] at hlt
            have h := hall0 q₂ u₂' hT0u hnn₂'
            omega
          · rw [hu1] at hlt
            simp only [HTree.freq_node] at hlt
            have h := hall0 q₂ u₂' hT0u hnn₂'
            omega
    · by_cases hq2 : q <+: q₂
      · obtain ⟨p₂, rfl⟩ := hq2
        have hm2 : nodeAt (HTree.node none (fa + fb)
            (HTree.node (some ca) fa HTree.null HTree.null)
            (HTree.node (some cb) fb HTree.null HTree.null)) p₂ = some u₂ := by
          rw [← hunder p₂]; exact hn₂
        rcases hoff q₁ hq1 with ⟨h1, h2⟩ | ⟨u, u₁', hTu, hT0u, hfr1, hnul1⟩
        · rw [hn₁] at h2
          exact Option.noConfusion h2
        · have hu1eq : u = u₁ := by
            rw [hn₁] at hTu
            exact (Option.some.inj hTu).symm
          subst hu1eq
          rcases nodeAt_merge_cases ca fa cb fb (fa + fb) p₂ u₂ hm2 hnn₂ with
            ⟨hp2, hu2⟩ | ⟨hp2, hu2⟩ | ⟨hp2, hu2⟩
          · subst hp2
            have hfr : (HTree.node (some ca) (fa + fb) HTree.null HTree.null).freq
                < u₁'.freq := by
              rw [hu2] at hlt
              simp only [HTree.freq_node] at hlt ⊢
              omega
            have h := IH0 q₁ u₁' q _ hT0u hq0 hlnn hfr
            simpa using h
          · subst hp2
            have hgt : fa < u₁'.freq := by
              rw [hu2] at hlt
              simp only [HTree.freq_node] at hlt
              omega
            have hanc := graft_ancestor_bound _ q ca fa fb hFull0 hLB0 hq0 IH0
              q₁ u₁' hT0u hgt
            simpa using hanc
          · subst hp2
            have hgt : fa < u₁'.freq := by
              rw [hu2] at hlt
              simp only [HTree.freq_node] at hlt
              omega
            have hanc := graft_ancestor_bound _ q ca fa fb hFull0 hLB0 hq0 IH0
              q₁ u₁' hT0u hgt
            simpa using hanc
      · rcases hoff q₁ hq1 with ⟨h1, h2⟩ | ⟨u, u₁', hTu, hT0u, hfr1, hnul1⟩
        · rw [hn₁] at h2
          exact Option.noConfusion h2
        · have hu1eq : u = u₁ := by
            rw [hn₁] at hTu
            exact (Option.some.inj hTu).symm
          subst hu1eq
          rcases hoff q₂ hq2 with ⟨h1', h2'⟩ | ⟨v, u₂', hTv, hT0v, hfr2, hnul2⟩
          · rw [hn₂] at h2'
            exact Option.noConfusion h2'
          · have hu2eq : v = u₂ := by
              rw [hn₂] at hTv
              exact (Option.some.inj hTv).symm
            subst hu2eq
            have hnn₂' : u₂' ≠ HTree.null := fun hx => hnn₂ (hnul2.mp hx)
            exact IH0 q₁ u₁' q₂ u₂' hT0u hT0v hnn₂' (by omega)

theorem poolLeaves_map_leafOf (L : List (Char × Nat)) :
    poolLeaves (L.map leafOf) = L.map leafOf := by
  induction L with
  | nil => rfl
  | cons p ps ih =>
    simp only [List.map_cons, poolLeaves_cons, ih]
    rfl

theorem walks_nodeAt {t : HTree} {p : List Char} {u : HTree} (w : Walks t p u) :
    nodeAt t (p.map (fun c => c == '1')) = some u := by
  induction w with
  | here c f l r hc => simp [nodeAt]
  | left f r hw ih =>
    have hbit : (('0' : Char) == '1') = false := by decide
    simp only [List.map_cons, hbit, nodeAt]
    simpa using ih
  | right f l hw ih =>
    have hbit : (('1' : Char) == '1') = true := by decide
    simp only [List.map_cons, hbit, nodeAt]
    simpa using ih

theorem walks_mem_leaves {t : HTree} {p : List Char} {u : HTree} (w : Walks t p u) :
    u ∈ HTree.leaves t := by
  induction w with
  | here c f l r hc =>
    cases c with
    | none => simp at hc
    | some c0 => simp [HTree.leaves]
  | left f r hw ih =>
    simp only [HTree.leaves, List.mem_append]
    exact Or.inl ih
  | right f l hw ih =>
    simp only [HTree.leaves, List.mem_append]
    exact Or.inr ih

theorem initialHeap_leafNodes (freqs : List (Char × Nat)) :
    ∀ t ∈ initialHeap freqs, IsLeafNode t := by
  intro t ht
  have hm := (initialHeap_perm freqs).subset ht
  obtain ⟨p, _, he⟩ := List.mem_map.mp hm
  exact ⟨p.1, p.2, he.symm⟩

/-- Claim C9: for every input text and pair of its symbols, if the first
symbol's count in the text's frequency table is strictly higher than the
second's, then the code `generateCodes` assigns to the first symbol is never
strictly longer than the code assigned to the second. -/
theorem higher_freq_shorter_code (text : String) (c₁ c₂ : Char) (f₁ f₂ : Nat)
    (s₁ s₂ : String)
    (hf₁ : getVal (calculateFrequencies text) c₁ = some f₁)
    (hf₂ : getVal (calculateFrequencies text) c₂ = some f₂)
    (hlt : f₂ < f₁)
    (hs₁ : getVal (generateCodes (buildHuffmanTree (calculateFrequencies text)) "" []) c₁
      = some s₁)
    (hs₂ : getVal (generateCodes (buildHuffmanTree (calculateFrequencies text)) "" []) c₂
      = some s₂) :
    s₁.length ≤ s₂.length := by
  by_cases hone : (calculateFrequencies text).length = 1
  · obtain ⟨p, hp⟩ := List.length_eq_one.mp hone
    have hm₁ := getVal_mem _ _ _ hf₁
    have hm₂ := getVal_mem _ _ _ hf₂
    rw [hp] at hm₁ hm₂
    simp only [List.mem_singleton] at hm₁ hm₂
    have e1 : f₁ = p.2 := congrArg Prod.snd hm₁
    have e2 : f₂ = p.2 := congrArg Prod.snd hm₂
    omega
  · have hne : calculateFrequencies text ≠ [] := by
      intro hx
      rw [hx] at hf₁
      simp [getVal] at hf₁
    have hlen2 : 1 < (initialHeap (calculateFrequencies text)).length := by
      rw [initialHeap_length]
      have hpos := List.length_pos.mpr hne
      omega
    have hheapne : initialHeap (calculateFrequencies text) ≠ [] :=
      heap_ne_nil_of_one_lt _ hlen2
    obtain ⟨troot, hbl, hrun⟩ := buildLoop_mergeRun _ hheapne (initialHeap_isHeap _)
    have htree : buildHuffmanTree (calculateFrequencies text) = troot := by
      unfold buildHuffmanTree
      rw [if_neg (by omega : ¬ (initialHeap (calculateFrequencies text)).length = 1)]
      rw [hbl, extractMin_singleton]
    obtain ⟨fR, lR, rR, hshape⟩ := buildHuffmanTree_shape _ hne
    have hnd : (buildHuffmanTree (calculateFrequencies text)).chars.Nodup :=
      (buildHuffmanTree_chars _).nodup_iff.mpr (calculateFrequencies_nodup text)
    rw [hshape] at hnd hs₁ hs₂
    obtain ⟨q₁, hq₁, hqc₁, hqs₁, _⟩ := codes_getVal_inv fR lR rR hnd c₁ s₁ hs₁
    obtain ⟨q₂, hq₂, hqc₂, hqs₂, _⟩ := codes_getVal_inv fR lR rR hnd c₂ s₂ hs₂
    obtain ⟨u₁, hw₁, huc₁⟩ := leafPaths_walks _ q₁ hq₁
    obtain ⟨u₂, hw₂, huc₂⟩ := leafPaths_walks _ q₂ hq₂
    have hrootT : HTree.node none fR lR rR = troot := by
      rw [← hshape]
      exact htree
    rw [hrootT] at hw₁ hw₂
    have hn₁ := walks_nodeAt hw₁
    have hn₂ := walks_nodeAt hw₂
    have hleafperm : HTree.leaves troot ~ (calculateFrequencies text).map leafOf := by
      refine (mergeRun_leaves hrun).trans ?_
      refine (poolLeaves_perm (initialHeap_perm _)).trans ?_
      rw [poolLeaves_map_leafOf]
    have hmem₁ : u₁ ∈ (calculateFrequencies text).map leafOf :=
      hleafperm.subset (walks_mem_leaves hw₁)
    have hmem₂ : u₂ ∈ (calculateFrequencies text).map leafOf :=
      hleafperm.subset (walks_mem_leaves hw₂)
    obtain ⟨p₁, hpm₁, hpe₁⟩ := List.mem_map.mp hmem₁
    obtain ⟨p₂, hpm₂, hpe₂⟩ := List.mem_map.mp hmem₂
    have hc1 : p₁.1 = c₁ := by
      have h := huc₁
      rw [← hpe₁] at h
      simp only [leafOf, createNode, HTree.char, Option.some.injEq] at h
      exact h.trans hqc₁
    have hc2 : p₂.1 = c₂ := by
      have h := huc₂
      rw [← hpe₂] at h
      simp only [leafOf, createNode, HTree.char, Option.some.injEq] at h
      exact h.trans hqc₂
    have hgv₁ : getVal (calculateFrequencies text) c₁ = some p₁.2 := by
      apply getVal_of_mem_nodup _ _ _ _ (calculateFrequencies_nodup text)
      rw [← hc1]
      simpa using hpm₁
    have hgv₂ : getVal (calculateFrequencies text) c₂ = some p₂.2 := by
      apply getVal_of_mem_nodup _ _ _ _ (calculateFrequencies_nodup text)
      rw [← hc2]
      simpa using hpm₂
    have hfr₁ : u₁.freq = f₁ := by
      have hp2 : p₁.2 = f₁ := by
        rw [hgv₁] at hf₁
        exact Option.some.inj hf₁
      rw [← hpe₁]
      simpa [leafOf, createNode, HTree.freq_node] using hp2
    have hfr₂ : u₂.freq = f₂ := by
      have hp2 : p₂.2 = f₂ := by
        rw [hgv₂] at hf₂
        exact Option.some.inj hf₂
      rw [← hpe₂]
      simpa [leafOf, createNode, HTree.freq_node] using hp2
    have hnn₂ : u₂ ≠ HTree.null := by
      intro hx
      rw [← hpe₂] at hx
      simp [leafOf, createNode] at hx
    have hmono := mergeRun_depth_mono (initialHeap (calculateFrequencies text)).length
      (initialHeap (calculateFrequencies text)) troot rfl hrun (initialHeap_leafNodes _)
      (q₁.2.map (fun c => c == '1')) u₁ (q₂.2.map (fun c => c == '1')) u₂ hn₁ hn₂ hnn₂
      (by rw [hfr₁, hfr₂]; exact hlt)
    rw [List.length_map, List.length_map] at hmono
    rw [hqs₁, hqs₂]
    show (String.mk q₁.2).length ≤ (String.mk q₂.2).length
    simpa [String.length] using hmono

/-- Witness for C9 at the concrete input "aab": 'a' occurs twice, 'b' once,
and the codes are "1" for 'a' and "0" for 'b'. -/
theorem higher_freq_shorter_code_witness :
    getVal (calculateFrequencies "aab") 'a' = some 2 ∧
    getVal (calculateFrequencies "aab") 'b' = some 1 ∧
    1 < 2 ∧
    getVal (generateCodes (buildHuffmanTree (calculateFrequencies "aab")) "" []) 'a'
      = some "1" ∧
    getVal (generateCodes (buildHuffmanTree (calculateFrequencies "aab")) "" []) 'b'
      = some "0" ∧
    ("1" : String).length ≤ ("0" : String).length := by
  have hfr : calculateFrequencies "aab" = [('a', 2), ('b', 1)] := rfl
  have hinit : initialHeap [('a', 2), ('b', 1)]
      = [HTree.node (some 'b') 1 HTree.null HTree.null,
         HTree.node (some 'a') 2 HTree.null HTree.null] := by
    unfold initialHeap
    rw [List.foldl_cons, List.foldl_cons, List.foldl_nil, minHeapInsert_nil,
      minHeapInsert_pair, if_pos (by decide)]
    rfl
  have htree : buildHuffmanTree [('a', 2), ('b', 1)]
      = HTree.node none 3 (HTree.node (some 'b') 1 HTree.null HTree.null)
          (HTree.node (some 'a') 2 HTree.null HTree.null) := by
    unfold buildHuffmanTree
    rw [hinit]
    rw [if_neg (by decide : ¬ ([HTree.node (some 'b') 1 HTree.null HTree.null,
      HTree.node (some 'a') 2 HTree.null HTree.null] : List HTree).length = 1)]
    rw [buildLoop_pair, extractMin_singleton]
    rfl
  have hval₁ : getVal (generateCodes (buildHuffmanTree (calculateFrequencies "aab")) "" []) 'a'
      = some "1" := by
    rw [hfr, htree]
    rfl
  have hval₂ : getVal (generateCodes (buildHuffmanTree (calculateFrequencies "aab")) "" []) 'b'
      = some "0" := by
    rw [hfr, htree]
    rfl
  refine ⟨by rw [hfr]; rfl, by rw [hfr]; rfl, by omega, hval₁, hval₂, ?_⟩
  exact higher_freq_shorter_code "aab" 'a' 'b' 2 1 "1" "0"
    (by rw [hfr]; rfl) (by rw [hfr]; rfl) (by omega) hval₁ hval₂
